import Mathlib

/-!
Verification of the region-extraction and slice-selection logic of
`image_processing.py` (radiomic feature extraction pipeline).

The Python module works on 2D integer masks (numpy arrays).  We embed a
2D slice of shape `r × c` as a total function `Fin r × Fin c → Int`.
`scipy.ndimage.label` (the connected-component labeling primitive, with
its default 4-connectivity structuring element) is embedded as an
executable labeling function built from a saturation-based reachability
computation: component IDs `1..K` are assigned in raster-scan order of
each component's first cell, which is exactly the order in which the
scipy labeling pass first encounters each component.
-/

namespace RadiomicSpec

/-- A coordinate of a 2D slice of shape `r × c` (row, column). -/
abbrev Cell (r c : Nat) := Fin r × Fin c

/-- A 2D integer mask slice of shape `r × c` (the embedding of a 2D
numpy integer array). -/
abbrev Mask (r c : Nat) := Cell r c → Int

/-- A 2D boolean grid of shape `r × c` (the embedding of a 2D numpy
boolean array such as `mask_slice == label_value`). -/
abbrev BGrid (r c : Nat) := Cell r c → Bool

/-- 4-connectivity adjacency of two cells: they agree on one coordinate
and differ by exactly one in the other. -/
def adjacent {r c : Nat} (a b : Cell r c) : Prop :=
  (a.1 = b.1 ∧ ((a.2 : Nat) + 1 = (b.2 : Nat) ∨ (b.2 : Nat) + 1 = (a.2 : Nat))) ∨
  (a.2 = b.2 ∧ ((a.1 : Nat) + 1 = (b.1 : Nat) ∨ (b.1 : Nat) + 1 = (a.1 : Nat)))

instance {r c : Nat} (a b : Cell r c) : Decidable (adjacent a b) := by
  unfold adjacent; exact inferInstance

theorem adjacent_symm {r c : Nat} {a b : Cell r c} (h : adjacent a b) : adjacent b a := by
  rcases h with ⟨h1, h2⟩ | ⟨h1, h2⟩
  · exact Or.inl ⟨h1.symm, h2.symm⟩
  · exact Or.inr ⟨h1.symm, h2.symm⟩

/-- One step between two cells that are both set in the boolean grid and
4-adjacent: the edge relation of the component graph. -/
def stepRel {r c : Nat} (g : BGrid r c) (a b : Cell r c) : Prop :=
  g a = true ∧ g b = true ∧ adjacent a b

instance {r c : Nat} (g : BGrid r c) (a b : Cell r c) : Decidable (stepRel g a b) := by
  unfold stepRel; exact inferInstance

theorem stepRel_symm {r c : Nat} {g : BGrid r c} {a b : Cell r c}
    (h : stepRel g a b) : stepRel g b a :=
  ⟨h.2.1, h.1, adjacent_symm h.2.2⟩

/-- Relation `Reaches g a b`: both cells are set and `b` is reachable from `a`
through set cells by 4-adjacent steps (the declarative notion of being
in the same 4-connected component). -/
def Reaches {r c : Nat} (g : BGrid r c) (a b : Cell r c) : Prop :=
  g a = true ∧ g b = true ∧ Relation.ReflTransGen (stepRel g) a b

theorem reflTransGen_symm {α : Type} {rel : α → α → Prop}
    (hs : ∀ x y, rel x y → rel y x) {a b : α}
    (h : Relation.ReflTransGen rel a b) : Relation.ReflTransGen rel b a := by
  induction h with
  | refl => exact Relation.ReflTransGen.refl
  | tail _ hstep ih => exact Relation.ReflTransGen.head (hs _ _ hstep) ih

theorem Reaches.symm {r c : Nat} {g : BGrid r c} {a b : Cell r c}
    (h : Reaches g a b) : Reaches g b a :=
  ⟨h.2.1, h.1, reflTransGen_symm (fun _ _ => stepRel_symm) h.2.2⟩

theorem Reaches.trans {r c : Nat} {g : BGrid r c} {a b d : Cell r c}
    (h1 : Reaches g a b) (h2 : Reaches g b d) : Reaches g a d :=
  ⟨h1.1, h2.2.1, Relation.ReflTransGen.trans h1.2.2 h2.2.2⟩

theorem Reaches.refl {r c : Nat} {g : BGrid r c} {a : Cell r c}
    (h : g a = true) : Reaches g a a :=
  ⟨h, h, Relation.ReflTransGen.refl⟩

/-- One expansion step of the reachability computation: add every set
cell adjacent to the current frontier. -/
def expand {r c : Nat} (g : BGrid r c) (s : Finset (Cell r c)) : Finset (Cell r c) :=
  s ∪ Finset.univ.filter (fun d => g d = true ∧ ∃ a ∈ s, adjacent a d)

/-- The seed of the reachability computation from `a` (empty when `a` is
not set in the grid). -/
def startSet {r c : Nat} (g : BGrid r c) (a : Cell r c) : Finset (Cell r c) :=
  if g a = true then {a} else ∅

/-- All cells reachable from `a` through set cells: `r * c` expansion
steps saturate the computation on an `r × c` grid. -/
def reachSet {r c : Nat} (g : BGrid r c) (a : Cell r c) : Finset (Cell r c) :=
  (expand g)^[r * c] (startSet g a)

theorem subset_expand {r c : Nat} (g : BGrid r c) (s : Finset (Cell r c)) :
    s ⊆ expand g s :=
  Finset.subset_union_left

theorem expand_mono {r c : Nat} (g : BGrid r c) {s t : Finset (Cell r c)}
    (h : s ⊆ t) : expand g s ⊆ expand g t := by
  intro x hx
  rcases Finset.mem_union.1 hx with hx | hx
  · exact Finset.mem_union_left _ (h hx)
  · rcases Finset.mem_filter.1 hx with ⟨hu, hgx, a, ha, hadj⟩
    exact Finset.mem_union_right _ (Finset.mem_filter.2 ⟨hu, hgx, a, h ha, hadj⟩)

theorem iterate_subset_succ {r c : Nat} (g : BGrid r c) (s : Finset (Cell r c)) (n : Nat) :
    (expand g)^[n] s ⊆ (expand g)^[n + 1] s := by
  rw [Function.iterate_succ_apply']
  exact subset_expand g _

theorem iterate_stab_add {r c : Nat} (g : BGrid r c) (s : Finset (Cell r c)) (k : Nat)
    (h : (expand g)^[k + 1] s = (expand g)^[k] s) :
    ∀ m, (expand g)^[k + m] s = (expand g)^[k] s := by
  intro m
  induction m with
  | zero => rfl
  | succ m ih =>
      have hidx : k + (m + 1) = (k + m) + 1 := by omega
      have hsat : expand g ((expand g)^[k] s) = (expand g)^[k] s := by
        have h2 := h
        rwa [Function.iterate_succ_apply' (expand g) k s] at h2
      rw [hidx, Function.iterate_succ_apply' (expand g) (k + m) s, ih, hsat]

theorem iterate_stab_or_card {r c : Nat} (g : BGrid r c) (s : Finset (Cell r c)) :
    ∀ n, (expand g)^[n + 1] s = (expand g)^[n] s ∨
      s.card + (n + 1) ≤ ((expand g)^[n + 1] s).card := by
  intro n
  induction n with
  | zero =>
      by_cases h : expand g s = s
      · left; simpa using h
      · right
        have hss : s ⊂ expand g s := ssubset_of_ne_of_subset (Ne.symm h) (subset_expand g s)
        simpa using Finset.card_lt_card hss
  | succ n ih =>
      rcases ih with ih | ih
      · left
        rw [Function.iterate_succ_apply' (expand g) (n + 1) s, ih,
          ← Function.iterate_succ_apply' (expand g) n s]
        exact ih
      · by_cases h : (expand g)^[n + 1 + 1] s = (expand g)^[n + 1] s
        · left; exact h
        · right
          have hss : (expand g)^[n + 1] s ⊂ (expand g)^[n + 1 + 1] s :=
            ssubset_of_ne_of_subset (Ne.symm h) (iterate_subset_succ g s (n + 1))
          have := Finset.card_lt_card hss
          omega

theorem iterate_saturates {r c : Nat} (g : BGrid r c) (s : Finset (Cell r c)) :
    (expand g)^[r * c + 1] s = (expand g)^[r * c] s := by
  rcases iterate_stab_or_card g s (r * c) with h | h
  · exact h
  · exfalso
    have hle : ((expand g)^[r * c + 1] s).card ≤ Fintype.card (Cell r c) :=
      Finset.card_le_univ _
    have hcard : Fintype.card (Cell r c) = r * c := by
      simp [Fintype.card_prod]
    omega

theorem expand_reachSet {r c : Nat} (g : BGrid r c) (a : Cell r c) :
    expand g (reachSet g a) = reachSet g a := by
  have := iterate_saturates g (startSet g a)
  rwa [Function.iterate_succ_apply'] at this

theorem subset_iterate {r c : Nat} (g : BGrid r c) (s : Finset (Cell r c)) (n : Nat) :
    s ⊆ (expand g)^[n] s := by
  induction n with
  | zero => exact fun x hx => hx
  | succ n ih => exact fun x hx => iterate_subset_succ g s n (ih hx)

theorem self_mem_reachSet {r c : Nat} (g : BGrid r c) (a : Cell r c)
    (h : g a = true) : a ∈ reachSet g a := by
  apply subset_iterate g (startSet g a) (r * c)
  simp [startSet, h]

theorem mem_reachSet_reaches {r c : Nat} (g : BGrid r c) (a b : Cell r c)
    (h : b ∈ reachSet g a) : Reaches g a b := by
  suffices hall : ∀ n x, x ∈ (expand g)^[n] (startSet g a) → Reaches g a x from
    hall (r * c) b h
  intro n
  induction n with
  | zero =>
      intro x hx
      by_cases hga : g a = true
      · simp [startSet, hga] at hx
        subst hx
        exact Reaches.refl hga
      · simp [startSet, hga] at hx
  | succ n ih =>
      intro x hx
      rw [Function.iterate_succ_apply'] at hx
      rcases Finset.mem_union.1 hx with hx | hx
      · exact ih x hx
      · rcases Finset.mem_filter.1 hx with ⟨_, hgx, y, hy, hadj⟩
        have hry := ih y hy
        exact hry.trans ⟨hry.2.1, hgx, Relation.ReflTransGen.single ⟨hry.2.1, hgx, hadj⟩⟩

theorem reaches_mem_reachSet {r c : Nat} (g : BGrid r c) (a b : Cell r c)
    (h : Reaches g a b) : b ∈ reachSet g a := by
  rcases h with ⟨hga, hgb, hpath⟩
  induction hpath with
  | refl => exact self_mem_reachSet g a hga
  | tail hxy hstep ih =>
      have hx := ih hstep.1
      rw [← expand_reachSet g a]
      exact Finset.mem_union_right _
        (Finset.mem_filter.2 ⟨Finset.mem_univ _, hstep.2.1, _, hx, hstep.2.2⟩)

theorem mem_reachSet_iff {r c : Nat} (g : BGrid r c) (a b : Cell r c) :
    b ∈ reachSet g a ↔ Reaches g a b :=
  ⟨mem_reachSet_reaches g a b, reaches_mem_reachSet g a b⟩

theorem reachSet_eq_of_reaches {r c : Nat} (g : BGrid r c) {a b : Cell r c}
    (h : Reaches g a b) : reachSet g a = reachSet g b := by
  ext x
  rw [mem_reachSet_iff, mem_reachSet_iff]
  exact ⟨fun hx => h.symm.trans hx, fun hx => h.trans hx⟩

theorem mem_reachSet_true {r c : Nat} {g : BGrid r c} {a b : Cell r c}
    (h : b ∈ reachSet g a) : g b = true :=
  (mem_reachSet_reaches g a b h).2.1

/-- A 4-connected component of a boolean grid: a nonempty set of set
cells, pairwise connected through set cells, and closed under one more
adjacent set cell (maximality). -/
def IsComponent {r c : Nat} (g : BGrid r c) (S : Finset (Cell r c)) : Prop :=
  S.Nonempty ∧ (∀ x ∈ S, g x = true) ∧
  (∀ x ∈ S, ∀ y ∈ S, Relation.ReflTransGen (stepRel g) x y) ∧
  (∀ x ∈ S, ∀ y, stepRel g x y → y ∈ S)

theorem isComponent_iff {r c : Nat} (g : BGrid r c) (S : Finset (Cell r c)) :
    IsComponent g S ↔ ∃ a, g a = true ∧ S = reachSet g a := by
  constructor
  · rintro ⟨⟨a, ha⟩, htrue, hconn, hclosed⟩
    have hga := htrue a ha
    refine ⟨a, hga, ?_⟩
    apply Finset.Subset.antisymm
    · intro x hx
      exact reaches_mem_reachSet g a x ⟨hga, htrue x hx, hconn a ha x hx⟩
    · intro x hx
      have hpath := (mem_reachSet_reaches g a x hx).2.2
      clear hx
      induction hpath with
      | refl => exact ha
      | tail hxy hstep ih => exact hclosed _ ih _ hstep
  · rintro ⟨a, hga, rfl⟩
    refine ⟨⟨a, self_mem_reachSet g a hga⟩, fun x hx => mem_reachSet_true hx, ?_, ?_⟩
    · intro x hx y hy
      exact ((mem_reachSet_reaches g a x hx).symm.trans
        (mem_reachSet_reaches g a y hy)).2.2
    · intro x hx y hstep
      have hrx := mem_reachSet_reaches g a x hx
      exact reaches_mem_reachSet g a y
        (hrx.trans ⟨hstep.1, hstep.2.1, Relation.ReflTransGen.single hstep⟩)

/-- All cells of an `r × c` grid in raster-scan (row-major) order: the
order in which the labeling pass visits cells. -/
def rasterCells (r c : Nat) : List (Cell r c) :=
  (List.finRange r) ×ˢ (List.finRange c)

/-- Raster-scan position of a cell. -/
def rasterIdx {r c : Nat} (x : Cell r c) : Nat := (x.1 : Nat) * c + (x.2 : Nat)

theorem mem_rasterCells {r c : Nat} (x : Cell r c) : x ∈ rasterCells r c := by
  rcases x with ⟨i, j⟩
  exact List.mem_product.2 ⟨List.mem_finRange i, List.mem_finRange j⟩

theorem rasterCells_nodup (r c : Nat) : (rasterCells r c).Nodup :=
  (List.nodup_finRange r).product (List.nodup_finRange c)

theorem raster_lt {c i i' j j' : Nat} (hj : j < c) (hlt : i < i') :
    i * c + j < i' * c + j' := by
  have hstep : (i + 1) * c ≤ i' * c := Nat.mul_le_mul_right c hlt
  have h2 : (i + 1) * c = i * c + c := by ring
  omega

theorem rasterIdx_injective {r c : Nat} {x y : Cell r c}
    (h : rasterIdx x = rasterIdx y) : x = y := by
  rcases x with ⟨i, j⟩
  rcases y with ⟨i', j'⟩
  have hh : (i : Nat) * c + (j : Nat) = (i' : Nat) * c + (j' : Nat) := h
  have hj : (j : Nat) < c := j.isLt
  have hj' : (j' : Nat) < c := j'.isLt
  have hii : (i : Nat) = (i' : Nat) := by
    rcases Nat.lt_trichotomy (i : Nat) (i' : Nat) with hlt | heq | hlt
    · exact absurd hh (Nat.ne_of_lt (raster_lt hj hlt))
    · exact heq
    · exact absurd hh.symm (Nat.ne_of_lt (raster_lt hj' hlt))
  have hieq : i = i' := Fin.ext hii
  subst hieq
  have hjj : (j : Nat) = (j' : Nat) := by omega
  have hjeq : j = j' := Fin.ext hjj
  subst hjeq
  rfl

/-- A cell is the representative of its component when it is set and no
cell at an earlier raster position reaches it: it is the first cell of
its component that the raster labeling pass encounters. -/
def isRep {r c : Nat} (g : BGrid r c) (x : Cell r c) : Bool :=
  g x && decide (∀ y : Cell r c, x ∈ reachSet g y → rasterIdx x ≤ rasterIdx y)

/-- The component representatives in raster order: component `k + 1` of
the labeling pass is the component of the `k`-th representative. -/
def reps {r c : Nat} (g : BGrid r c) : List (Cell r c) :=
  (rasterCells r c).filter (fun x => isRep g x)

/-- The number of connected components found by the labeling pass (the
second return value of `scipy.ndimage.label`). -/
def numLabels {r c : Nat} (g : BGrid r c) : Nat := (reps g).length

theorem reps_nodup {r c : Nat} (g : BGrid r c) : (reps g).Nodup :=
  (rasterCells_nodup r c).filter _

theorem isRep_true_iff {r c : Nat} (g : BGrid r c) (x : Cell r c) :
    isRep g x = true ↔
      g x = true ∧ ∀ y : Cell r c, x ∈ reachSet g y → rasterIdx x ≤ rasterIdx y := by
  simp [isRep]

theorem mem_reps_iff {r c : Nat} (g : BGrid r c) (x : Cell r c) :
    x ∈ reps g ↔ isRep g x = true := by
  constructor
  · intro h
    exact (List.mem_filter.1 h).2
  · intro h
    exact List.mem_filter.2 ⟨mem_rasterCells x, h⟩

theorem rep_unique {r c : Nat} (g : BGrid r c) {a b x : Cell r c}
    (ha : isRep g a = true) (hb : isRep g b = true)
    (hxa : x ∈ reachSet g a) (hxb : x ∈ reachSet g b) : a = b := by
  rcases (isRep_true_iff g a).1 ha with ⟨-, hmina⟩
  rcases (isRep_true_iff g b).1 hb with ⟨-, hminb⟩
  have hab : Reaches g a b :=
    (mem_reachSet_reaches g a x hxa).trans (mem_reachSet_reaches g b x hxb).symm
  have h1 : rasterIdx b ≤ rasterIdx a := hminb a (reaches_mem_reachSet g a b hab)
  have h2 : rasterIdx a ≤ rasterIdx b := hmina b (reaches_mem_reachSet g b a hab.symm)
  exact rasterIdx_injective (Nat.le_antisymm h2 h1)

theorem rep_exists {r c : Nat} (g : BGrid r c) (x : Cell r c) (hx : g x = true) :
    ∃ rp, isRep g rp = true ∧ x ∈ reachSet g rp := by
  have hne : (reachSet g x).Nonempty := ⟨x, self_mem_reachSet g x hx⟩
  rcases Finset.exists_min_image (reachSet g x) rasterIdx hne with ⟨m, hm, hmin⟩
  have hrm : Reaches g x m := mem_reachSet_reaches g x m hm
  refine ⟨m, ?_, reaches_mem_reachSet g m x hrm.symm⟩
  rw [isRep_true_iff]
  refine ⟨hrm.2.1, ?_⟩
  intro y hmy
  have hym : Reaches g y m := mem_reachSet_reaches g y m hmy
  have hxy : Reaches g x y := hrm.trans hym.symm
  exact hmin y (reaches_mem_reachSet g x y hxy)

/-- Position of the first list element whose reachability set contains
`x` (the first component representative reaching `x`). -/
def firstReachIdx {r c : Nat} (g : BGrid r c) (x : Cell r c) :
    List (Cell r c) → Option Nat
  | [] => Option.none
  | a :: l =>
      if x ∈ reachSet g a then some 0
      else (firstReachIdx g x l).map (· + 1)

/-- The component ID the labeling pass assigns to a cell: `k + 1` when
the cell belongs to the component of the `k`-th representative, `0` for
background (unset) cells.  This is the embedding of the output grid of
`scipy.ndimage.label`. -/
def labelAt {r c : Nat} (g : BGrid r c) (x : Cell r c) : Nat :=
  match firstReachIdx g x (reps g) with
  | some k => k + 1
  | Option.none => 0

theorem firstReachIdx_some {r c : Nat} (g : BGrid r c) (x : Cell r c)
    (l : List (Cell r c)) (k : Nat) (h : firstReachIdx g x l = some k) :
    ∃ hk : k < l.length, x ∈ reachSet g (l.get ⟨k, hk⟩) := by
  induction l generalizing k with
  | nil => simp [firstReachIdx] at h
  | cons a l ih =>
      by_cases hmem : x ∈ reachSet g a
      · simp [firstReachIdx, hmem] at h
        subst h
        exact ⟨Nat.succ_pos _, hmem⟩
      · simp [firstReachIdx, hmem] at h
        rcases h with ⟨k', hk', rfl⟩
        rcases ih k' hk' with ⟨hlt, hmem'⟩
        exact ⟨Nat.succ_lt_succ hlt, hmem'⟩

theorem firstReachIdx_eq {r c : Nat} (g : BGrid r c) (x : Cell r c)
    (l : List (Cell r c)) (k : Nat) (hk : k < l.length)
    (hmem : x ∈ reachSet g (l.get ⟨k, hk⟩))
    (hnot : ∀ j (hj : j < l.length), j < k → x ∉ reachSet g (l.get ⟨j, hj⟩)) :
    firstReachIdx g x l = some k := by
  induction l generalizing k with
  | nil => exact absurd hk (by simp)
  | cons a l ih =>
      cases k with
      | zero =>
          have hma : x ∈ reachSet g a := hmem
          simp [firstReachIdx, hma]
      | succ k =>
          have ha : x ∉ reachSet g a := by
            have := hnot 0 (Nat.succ_pos _) (Nat.succ_pos _)
            simpa using this
          have hk' : k < l.length := Nat.lt_of_succ_lt_succ hk
          have hrec := ih k hk' hmem ?_
          · simp [firstReachIdx, ha, hrec]
          · intro j hj hjk
            have := hnot (j + 1) (Nat.succ_lt_succ hj) (Nat.succ_lt_succ hjk)
            simpa using this

theorem firstReachIdx_none {r c : Nat} (g : BGrid r c) (x : Cell r c)
    (l : List (Cell r c)) (h : ∀ a ∈ l, x ∉ reachSet g a) :
    firstReachIdx g x l = Option.none := by
  induction l with
  | nil => rfl
  | cons a l ih =>
      have ha : x ∉ reachSet g a := h a (List.mem_cons_self a l)
      simp [firstReachIdx, ha, ih (fun b hb => h b (List.mem_cons_of_mem a hb))]

theorem firstReachIdx_isSome {r c : Nat} (g : BGrid r c) (x : Cell r c)
    (l : List (Cell r c)) (a : Cell r c) (ha : a ∈ l) (h : x ∈ reachSet g a) :
    ∃ k, firstReachIdx g x l = some k := by
  induction l with
  | nil => exact absurd ha (by simp)
  | cons b l ih =>
      by_cases hb : x ∈ reachSet g b
      · exact ⟨0, by simp [firstReachIdx, hb]⟩
      · have hal : a ∈ l := by
          rcases List.mem_cons.1 ha with rfl | hal
          · exact absurd h hb
          · exact hal
        rcases ih hal with ⟨k, hk⟩
        exact ⟨k + 1, by simp [firstReachIdx, hb, hk]⟩

theorem labelAt_zero_of_unset {r c : Nat} (g : BGrid r c) (x : Cell r c)
    (hx : g x = false) : labelAt g x = 0 := by
  unfold labelAt
  rw [firstReachIdx_none]
  intro a _ hmem
  exact absurd (mem_reachSet_true hmem) (by simp [hx])

theorem labelAt_set_of_ne_zero {r c : Nat} (g : BGrid r c) (x : Cell r c)
    (h : labelAt g x ≠ 0) : g x = true := by
  by_contra hx
  exact h (labelAt_zero_of_unset g x (by simpa using hx))

theorem labelAt_pos {r c : Nat} (g : BGrid r c) (x : Cell r c)
    (hx : g x = true) : ∃ k, labelAt g x = k + 1 := by
  rcases rep_exists g x hx with ⟨rp, hrep, hmem⟩
  rcases firstReachIdx_isSome g x (reps g) rp ((mem_reps_iff g rp).2 hrep) hmem with ⟨k, hk⟩
  exact ⟨k, by simp [labelAt, hk]⟩

/-- The cells labeled `k + 1` are exactly the reachability class of the
`k`-th representative: the labeling partitions the set cells into
components with IDs `1..numLabels`. -/
theorem labelAt_class {r c : Nat} (g : BGrid r c) (x : Cell r c) (k : Nat)
    (h : labelAt g x = k + 1) :
    ∃ rp, isRep g rp = true ∧ x ∈ reachSet g rp ∧ k < numLabels g ∧
      (∀ y, labelAt g y = k + 1 ↔ y ∈ reachSet g rp) := by
  have hfi : firstReachIdx g x (reps g) = some k := by
    unfold labelAt at h
    rcases hm : firstReachIdx g x (reps g) with _ | k'
    · rw [hm] at h; simp at h
    · rw [hm] at h
      simp at h
      rw [h]
  rcases firstReachIdx_some g x (reps g) k hfi with ⟨hk, hmem⟩
  set rp := (reps g).get ⟨k, hk⟩ with hrp
  have hrpmem : rp ∈ reps g := by
    rw [hrp]
    exact List.get_mem (reps g) k hk
  have hrep : isRep g rp = true := (mem_reps_iff g rp).1 hrpmem
  refine ⟨rp, hrep, hmem, hk, ?_⟩
  intro y
  constructor
  · intro hy
    have hfy : firstReachIdx g y (reps g) = some k := by
      unfold labelAt at hy
      rcases hm : firstReachIdx g y (reps g) with _ | k'
      · rw [hm] at hy; simp at hy
      · rw [hm] at hy
        simp at hy
        rw [hy]
    rcases firstReachIdx_some g y (reps g) k hfy with ⟨hk2, hmem2⟩
    have : (reps g).get ⟨k, hk2⟩ = rp := rfl
    rwa [this] at hmem2
  · intro hy
    have hfy : firstReachIdx g y (reps g) = some k := by
      apply firstReachIdx_eq g y (reps g) k hk hy
      intro j hj hjk hmemj
      have hrepj : isRep g ((reps g).get ⟨j, hj⟩) = true :=
        (mem_reps_iff g _).1 (List.get_mem (reps g) j hj)
      have heq : (reps g).get ⟨j, hj⟩ = rp := rep_unique g hrepj hrep hmemj hy
      have : (⟨j, hj⟩ : Fin (reps g).length) = ⟨k, hk⟩ :=
        (List.Nodup.get_inj_iff (reps_nodup g)).1 heq
      have : j = k := congrArg Fin.val this
      omega
    simp [labelAt, hfy]

/-- The binary grid `mask_slice == label_value` built at line 26 of
`image_processing.py`. -/
def binOf {r c : Nat} (m : Mask r c) (lv : Int) : BGrid r c :=
  fun x => decide (m x = lv)

/-- The re-materialized grid
`(labeled_region == region_id).astype(mask_slice.dtype) * label_value`
of line 36. -/
def componentGrid {r c : Nat} (g : BGrid r c) (lv : Int) (id : Nat) : Mask r c :=
  fun x => (if labelAt g x = id then 1 else 0) * lv

/-- Embedding of `np.sum(region > 0)` of line 37: the number of strictly positive
cells of a grid. -/
def regionArea {r c : Nat} (m : Mask r c) : Nat :=
  (Finset.univ.filter (fun x => 0 < m x)).card

/-- The accumulator loop of lines 31-42: iterate over the component IDs
keeping the first region whose area strictly exceeds the best so far. -/
def bestRegion {r c : Nat} (g : BGrid r c) (lv : Int) :
    List Nat → Option (Mask r c) × Nat → Option (Mask r c) × Nat
  | [], st => st
  | id :: ids, (lr, la) =>
      if la < regionArea (componentGrid g lv id) then
        bestRegion g lv ids (some (componentGrid g lv id), regionArea (componentGrid g lv id))
      else
        bestRegion g lv ids (lr, la)

/-- The core of `extract_largest_region` (lines 26-44 of
`image_processing.py`), after the argument validation: label the
4-connected components of `mask_slice == label_value` and return the
component with the largest positive-cell count, or `None` when no
component improves on the initial area `0`. -/
def extract_largest_region {r c : Nat} (m : Mask r c) (lv : Int) :
    Option (Mask r c) :=
  (bestRegion (binOf m lv) lv
    ((List.range (numLabels (binOf m lv))).map (· + 1)) (Option.none, 0)).1

/-- Strong specification of the accumulator loop: either no area in the
list beats the incoming best and the state is returned unchanged, or the
result is the first list entry achieving the (strict) running maximum. -/
theorem bestRegion_spec {r c : Nat} (g : BGrid r c) (lv : Int) (l : List Nat)
    (b : Option (Mask r c)) (a : Nat) :
    (bestRegion g lv l (b, a) = (b, a) ∧
      ∀ id ∈ l, regionArea (componentGrid g lv id) ≤ a) ∨
    (∃ k, ∃ hk : k < l.length,
      bestRegion g lv l (b, a) =
        (some (componentGrid g lv (l.get ⟨k, hk⟩)),
          regionArea (componentGrid g lv (l.get ⟨k, hk⟩))) ∧
      a < regionArea (componentGrid g lv (l.get ⟨k, hk⟩)) ∧
      (∀ id ∈ l, regionArea (componentGrid g lv id) ≤
        regionArea (componentGrid g lv (l.get ⟨k, hk⟩))) ∧
      (∀ j, ∀ hj : j < l.length, j < k →
        regionArea (componentGrid g lv (l.get ⟨j, hj⟩)) <
          regionArea (componentGrid g lv (l.get ⟨k, hk⟩)))) := by
  induction l generalizing b a with
  | nil => exact Or.inl ⟨rfl, by simp⟩
  | cons id ids ih =>
      by_cases hgt : a < regionArea (componentGrid g lv id)
      · rcases ih (some (componentGrid g lv id)) (regionArea (componentGrid g lv id)) with
          ⟨heq, hall⟩ | ⟨k, hk, heq, hlt, hall, hfirst⟩
        · right
          refine ⟨0, Nat.succ_pos _, ?_, hgt, ?_, ?_⟩
          · simp only [bestRegion, if_pos hgt]
            exact heq
          · intro id' hid'
            rcases List.mem_cons.1 hid' with rfl | hid'
            · exact le_refl _
            · exact hall id' hid'
          · intro j hj hj0
            omega
        · right
          refine ⟨k + 1, Nat.succ_lt_succ hk, ?_, ?_, ?_, ?_⟩
          · simp only [bestRegion, if_pos hgt]
            exact heq
          · simp only [List.get_cons_succ]
            omega
          · intro id' hid'
            rcases List.mem_cons.1 hid' with rfl | hid'
            · exact le_of_lt hlt
            · exact hall id' hid'
          · intro j hj hjk
            cases j with
            | zero => exact hlt
            | succ j => exact hfirst j (Nat.lt_of_succ_lt_succ hj) (Nat.lt_of_succ_lt_succ hjk)
      · rcases ih b a with ⟨heq, hall⟩ | ⟨k, hk, heq, hlt, hall, hfirst⟩
        · left
          refine ⟨?_, ?_⟩
          · simp only [bestRegion, if_neg hgt]
            exact heq
          · intro id' hid'
            rcases List.mem_cons.1 hid' with rfl | hid'
            · omega
            · exact hall id' hid'
        · right
          refine ⟨k + 1, Nat.succ_lt_succ hk, ?_, hlt, ?_, ?_⟩
          · simp only [bestRegion, if_neg hgt]
            exact heq
          · intro id' hid'
            rcases List.mem_cons.1 hid' with rfl | hid'
            · simp only [List.get_cons_succ]
              omega
            · exact hall id' hid'
          · intro j hj hjk
            cases j with
            | zero =>
                have h0 : (id :: ids).get ⟨0, hj⟩ = id := rfl
                rw [h0]
                simp only [List.get_cons_succ]
                omega
            | succ j => exact hfirst j (Nat.lt_of_succ_lt_succ hj) (Nat.lt_of_succ_lt_succ hjk)

/-- Number of cells carrying component ID `id` in the labeled grid. -/
def classCard {r c : Nat} (g : BGrid r c) (id : Nat) : Nat :=
  (Finset.univ.filter (fun x => labelAt g x = id)).card

theorem regionArea_componentGrid_pos {r c : Nat} (g : BGrid r c) {lv : Int}
    (hlv : 0 < lv) (id : Nat) :
    regionArea (componentGrid g lv id) = classCard g id := by
  unfold regionArea classCard
  congr 1
  ext x
  simp only [Finset.mem_filter, Finset.mem_univ, true_and, componentGrid]
  constructor
  · intro hx
    by_contra hne
    rw [if_neg hne] at hx
    simp at hx
  · intro hx
    rw [if_pos hx]
    simpa using hlv

theorem regionArea_componentGrid_nonpos {r c : Nat} (g : BGrid r c) {lv : Int}
    (hlv : lv ≤ 0) (id : Nat) :
    regionArea (componentGrid g lv id) = 0 := by
  unfold regionArea
  rw [Finset.card_eq_zero]
  ext x
  simp only [Finset.mem_filter, Finset.mem_univ, true_and, componentGrid,
    Finset.not_mem_empty, iff_false, not_lt]
  by_cases h : labelAt g x = id
  · rw [if_pos h]; simpa using hlv
  · rw [if_neg h]; simp

theorem idsList_get (K k : Nat) (hk : k < ((List.range K).map (· + 1)).length) :
    ((List.range K).map (· + 1)).get ⟨k, hk⟩ = k + 1 := by
  simp

theorem mem_idsList (K id : Nat) :
    id ∈ (List.range K).map (· + 1) ↔ 1 ≤ id ∧ id ≤ K := by
  simp only [List.mem_map, List.mem_range]
  constructor
  · rintro ⟨j, hj, rfl⟩
    omega
  · rintro ⟨h1, h2⟩
    exact ⟨id - 1, by omega, by omega⟩

theorem extract_none_of_nonpos {r c : Nat} (m : Mask r c) {lv : Int}
    (hlv : lv ≤ 0) : extract_largest_region m lv = Option.none := by
  unfold extract_largest_region
  rcases bestRegion_spec (binOf m lv) lv
      ((List.range (numLabels (binOf m lv))).map (· + 1)) Option.none 0 with
    ⟨heq, -⟩ | ⟨k, hk, -, hlt, -, -⟩
  · rw [heq]
  · rw [regionArea_componentGrid_nonpos (binOf m lv) hlv] at hlt
    omega

theorem extract_none_of_absent {r c : Nat} (m : Mask r c) (lv : Int)
    (h : ∀ x, m x ≠ lv) : extract_largest_region m lv = Option.none := by
  have hreps : reps (binOf m lv) = [] := by
    rcases hr : reps (binOf m lv) with _ | ⟨a, l⟩
    · rfl
    · exfalso
      have ha : a ∈ reps (binOf m lv) := by rw [hr]; exact List.mem_cons_self a l
      have := (isRep_true_iff _ a).1 ((mem_reps_iff _ a).1 ha)
      have hga : binOf m lv a = true := this.1
      rw [binOf] at hga
      exact h a (of_decide_eq_true hga)
  unfold extract_largest_region
  rw [numLabels, hreps]
  rfl

theorem extract_some_of_present {r c : Nat} (m : Mask r c) {lv : Int}
    (hlv : 0 < lv) (x : Cell r c) (hx : m x = lv) :
    ∃ out, extract_largest_region m lv = some out := by
  unfold extract_largest_region
  rcases bestRegion_spec (binOf m lv) lv
      ((List.range (numLabels (binOf m lv))).map (· + 1)) Option.none 0 with
    ⟨heq, hall⟩ | ⟨k, hk, heq, -, -, -⟩
  · exfalso
    have hgx : binOf m lv x = true := by simp [binOf, hx]
    rcases labelAt_pos (binOf m lv) x hgx with ⟨k, hkx⟩
    rcases labelAt_class (binOf m lv) x k hkx with ⟨rp, -, -, hklt, -⟩
    have hmem : k + 1 ∈ (List.range (numLabels (binOf m lv))).map (· + 1) :=
      (mem_idsList _ _).2 ⟨by omega, by omega⟩
    have hle := hall (k + 1) hmem
    rw [regionArea_componentGrid_pos (binOf m lv) hlv] at hle
    have hxmem : x ∈ Finset.univ.filter (fun y => labelAt (binOf m lv) y = k + 1) :=
      Finset.mem_filter.2 ⟨Finset.mem_univ x, hkx⟩
    have : 0 < classCard (binOf m lv) (k + 1) :=
      Finset.card_pos.2 ⟨x, hxmem⟩
    omega
  · rw [heq]
    exact ⟨_, rfl⟩

/-- Characterization of a successful extraction with a positive label:
the result is the component grid of the ID achieving the maximal class
size, and among the tied maximal IDs it is the smallest one. -/
theorem extract_some_char {r c : Nat} (m : Mask r c) {lv : Int} (hlv : 0 < lv)
    {out : Mask r c} (h : extract_largest_region m lv = some out) :
    ∃ k, k < numLabels (binOf m lv) ∧
      out = componentGrid (binOf m lv) lv (k + 1) ∧
      0 < classCard (binOf m lv) (k + 1) ∧
      (∀ id, 1 ≤ id → id ≤ numLabels (binOf m lv) →
        classCard (binOf m lv) id ≤ classCard (binOf m lv) (k + 1)) ∧
      (∀ id, 1 ≤ id → id ≤ numLabels (binOf m lv) →
        classCard (binOf m lv) id = classCard (binOf m lv) (k + 1) → k + 1 ≤ id) := by
  set g := binOf m lv with hg
  unfold extract_largest_region at h
  rcases bestRegion_spec g lv ((List.range (numLabels g)).map (· + 1))
      Option.none 0 with ⟨heq, -⟩ | ⟨k, hk, heq, hlt, hall, hfirst⟩
  · rw [← hg, heq] at h
    simp at h
  · rw [← hg] at h
    rw [heq] at h
    rw [idsList_get] at heq hlt hall hfirst h
    have hklen : k < numLabels g := by
      have := hk
      simpa using this
    have hout : out = componentGrid g lv (k + 1) := by
      have h2 : some (componentGrid g lv (k + 1)) = some out := h
      exact (Option.some.inj h2).symm
    refine ⟨k, hklen, hout, ?_, ?_, ?_⟩
    · rw [regionArea_componentGrid_pos g hlv] at hlt
      omega
    · intro id h1 h2
      have hmem : id ∈ (List.range (numLabels g)).map (· + 1) :=
        (mem_idsList _ _).2 ⟨h1, h2⟩
      have := hall id hmem
      rwa [regionArea_componentGrid_pos g hlv, regionArea_componentGrid_pos g hlv] at this
    · intro id h1 h2 hcard
      by_contra hcon
      have hid : id - 1 < k := by omega
      have hjlt : id - 1 < ((List.range (numLabels g)).map (· + 1)).length := by
        simpa using (by omega : id - 1 < numLabels g)
      have := hfirst (id - 1) hjlt hid
      rw [idsList_get] at this
      have hid1 : id - 1 + 1 = id := by omega
      rw [hid1] at this
      rw [regionArea_componentGrid_pos g hlv, regionArea_componentGrid_pos g hlv] at this
      omega

/-- A nonempty component-ID class is a genuine 4-connected component. -/
theorem class_isComponent {r c : Nat} (g : BGrid r c) (k : Nat)
    (hne : 0 < classCard g (k + 1)) :
    IsComponent g (Finset.univ.filter (fun x => labelAt g x = k + 1)) := by
  rcases Finset.card_pos.1 hne with ⟨x, hx⟩
  have hxl : labelAt g x = k + 1 := (Finset.mem_filter.1 hx).2
  rcases labelAt_class g x k hxl with ⟨rp, hrep, hxrp, -, hclass⟩
  rw [isComponent_iff]
  refine ⟨rp, ((isRep_true_iff g rp).1 hrep).1, ?_⟩
  ext y
  simp only [Finset.mem_filter, Finset.mem_univ, true_and]
  exact hclass y

/-- Every 4-connected component is a component-ID class for some ID in
`1..numLabels`. -/
theorem component_is_class {r c : Nat} (g : BGrid r c) (S : Finset (Cell r c))
    (hS : IsComponent g S) :
    ∃ id, 1 ≤ id ∧ id ≤ numLabels g ∧
      S = Finset.univ.filter (fun x => labelAt g x = id) := by
  rcases (isComponent_iff g S).1 hS with ⟨a, hga, rfl⟩
  rcases labelAt_pos g a hga with ⟨k, hka⟩
  rcases labelAt_class g a k hka with ⟨rp, -, harp, hklt, hclass⟩
  refine ⟨k + 1, by omega, by omega, ?_⟩
  have hra : Reaches g rp a := mem_reachSet_reaches g rp a harp
  rw [reachSet_eq_of_reaches g hra.symm]
  ext y
  simp only [Finset.mem_filter, Finset.mem_univ, true_and]
  exact (hclass y).symm

/-- A raised Python exception, carrying its class and message. -/
inductive PyErr where
  | typeError (msg : String)
  | valueError (msg : String)
  | indexError
deriving DecidableEq

/-- A dynamically typed Python value as far as the argument-validation
code of `image_processing.py` can distinguish one: an `int`, a `float`,
a `str`, a 2D numpy array, or `None`. -/
inductive PyValue (r c : Nat) where
  | int (n : Int)
  | float (q : Rat)
  | str (s : String)
  | arr (m : Mask r c)
  | pynone

/-- The argument validation prefix of `extract_largest_region`
(lines 15-23 of `image_processing.py`): the swapped-arguments guard,
the `isinstance(label_value, int)` check and the negativity check, in
that order. -/
def extract_region_validation {r c : Nat} (mask_slice label_value : PyValue r c) :
    Except PyErr Unit :=
  match mask_slice, label_value with
  | .int _, .arr _ => .error (.typeError
      "Inputs appear to be swapped. Expected mask_slice as a numpy array and label_value as an integer.")
  | _, .int n =>
      if n < 0 then .error (.valueError "Label value cannot be negative")
      else .ok ()
  | _, _ => .error (.typeError "Label value must be an integer")

/-- Behavior of `extract_largest_region` called with a 2D array mask and a genuine
`int` label (the shapes reaching the component search): validation
followed by the core extraction. -/
def extract_largest_region_checked {r c : Nat} (m : Mask r c) (lv : Int) :
    Except PyErr (Option (Mask r c)) :=
  match extract_region_validation (PyValue.arr m) (PyValue.int lv) with
  | .error e => .error e
  | .ok _ => .ok (extract_largest_region m lv)

theorem checked_nonneg {r c : Nat} (m : Mask r c) (lv : Int) (h : 0 ≤ lv) :
    extract_largest_region_checked m lv = .ok (extract_largest_region m lv) := by
  have hn : ¬ lv < 0 := not_lt.2 h
  simp [extract_largest_region_checked, extract_region_validation, hn]

/-- The ascending list of distinct nonzero values of a mask slice:
`labels = np.unique(mask_slice); labels = labels[labels != 0]`
(lines 56-57 of `image_processing.py`).  `np.unique` returns the
distinct values in ascending order. -/
def nonzeroLabels {r c : Nat} (m : Mask r c) : List Int :=
  (List.insertionSort (· ≤ ·) ((rasterCells r c).map m).dedup).filter
    (fun v => v ≠ 0)

/-- The `for lbl in labels` loop of `process_slice` (lines 59-65):
return at the first label whose extraction is non-`None`, propagate any
exception, fall through to `(None, None)`. -/
def processLoop {r c : Nat} (m : Mask r c) : List Int → Except PyErr (Option (Mask r c × Int))
  | [] => .ok Option.none
  | lbl :: rest =>
      match extract_largest_region_checked m lbl with
      | .error e => .error e
      | .ok Option.none => processLoop m rest
      | .ok (some reg) => .ok (some (reg, lbl))

/-- Embedding of `process_slice` (lines 47-65 of `image_processing.py`). -/
def process_slice {r c : Nat} (m : Mask r c) : Except PyErr (Option (Mask r c × Int)) :=
  processLoop m (nonzeroLabels m)

theorem mem_nonzeroLabels {r c : Nat} (m : Mask r c) (v : Int) :
    v ∈ nonzeroLabels m ↔ (∃ x, m x = v) ∧ v ≠ 0 := by
  unfold nonzeroLabels
  rw [List.mem_filter, List.mem_insertionSort, List.mem_dedup, List.mem_map]
  simp only [decide_eq_true_eq]
  constructor
  · rintro ⟨⟨x, -, hx⟩, hne⟩
    exact ⟨⟨x, hx⟩, hne⟩
  · rintro ⟨⟨x, hx⟩, hne⟩
    exact ⟨⟨x, mem_rasterCells x, hx⟩, hne⟩

theorem nonzeroLabels_sorted {r c : Nat} (m : Mask r c) :
    (nonzeroLabels m).Pairwise (· ≤ ·) :=
  (List.sorted_insertionSort (· ≤ ·) _).filter _

theorem nonzeroLabels_min {r c : Nat} (m : Mask r c) (l0 : Int) (rest : List Int)
    (h : nonzeroLabels m = l0 :: rest) (v : Int) (hv : v ∈ nonzeroLabels m) :
    l0 ≤ v := by
  have hs := nonzeroLabels_sorted m
  rw [h] at hs hv
  rcases List.mem_cons.1 hv with rfl | hv
  · exact le_refl v
  · exact (List.pairwise_cons.1 hs).1 v hv

theorem process_slice_all_zero {r c : Nat} (m : Mask r c) (h : ∀ x, m x = 0) :
    process_slice m = .ok Option.none := by
  have hempty : nonzeroLabels m = [] := by
    rcases hl : nonzeroLabels m with _ | ⟨v, rest⟩
    · rfl
    · exfalso
      have hv : v ∈ nonzeroLabels m := by rw [hl]; exact List.mem_cons_self v rest
      rcases (mem_nonzeroLabels m v).1 hv with ⟨⟨x, hx⟩, hne⟩
      exact hne (hx ▸ h x)
  unfold process_slice
  rw [hempty]
  rfl

/-- Core behavior of `process_slice` on a well-formed nonempty mask: it
succeeds at the very first (smallest) nonzero label. -/
theorem process_slice_core {r c : Nat} (m : Mask r c)
    (hpos : ∀ x, 0 ≤ m x) (x0 : Cell r c) (h0 : m x0 ≠ 0) :
    ∃ reg l0, process_slice m = .ok (some (reg, l0)) ∧
      extract_largest_region m l0 = some reg ∧
      (∃ x, m x = l0) ∧ l0 ≠ 0 ∧
      (∀ v, (∃ x, m x = v) → v ≠ 0 → l0 ≤ v) := by
  have hx0 : m x0 ∈ nonzeroLabels m := (mem_nonzeroLabels m (m x0)).2 ⟨⟨x0, rfl⟩, h0⟩
  rcases hl : nonzeroLabels m with _ | ⟨l0, rest⟩
  · rw [hl] at hx0; exact absurd hx0 (by simp)
  · have hl0mem : l0 ∈ nonzeroLabels m := by
      rw [hl]; exact List.mem_cons_self l0 rest
    rcases (mem_nonzeroLabels m l0).1 hl0mem with ⟨⟨x1, hx1⟩, hne0⟩
    have hl0pos : 0 < l0 := lt_of_le_of_ne (hx1 ▸ hpos x1) (Ne.symm hne0)
    rcases extract_some_of_present m hl0pos x1 hx1 with ⟨out, hout⟩
    refine ⟨out, l0, ?_, hout, ⟨x1, hx1⟩, hne0, ?_⟩
    · unfold process_slice
      rw [hl]
      unfold processLoop
      rw [checked_nonneg m l0 (le_of_lt hl0pos), hout]
    · intro v hvpres hvne
      exact nonzeroLabels_min m l0 rest hl v
        ((mem_nonzeroLabels m v).2 ⟨hvpres, hvne⟩)

theorem process_slice_ok {r c : Nat} (m : Mask r c) (hpos : ∀ x, 0 ≤ m x) :
    ∃ o, process_slice m = .ok o := by
  by_cases hz : ∀ x, m x = 0
  · exact ⟨Option.none, process_slice_all_zero m hz⟩
  · push_neg at hz
    rcases hz with ⟨x0, hx0⟩
    rcases process_slice_core m hpos x0 hx0 with ⟨reg, l0, hps, -⟩
    exact ⟨some (reg, l0), hps⟩

/-- The record appended by `get_slices_2D` for one retained slice
(lines 93-99 of `image_processing.py`).  The SimpleITK wrapping
(`GetImageFromArray` / `GetArrayFromImage`) is the identity in this
embedding, where an image object is represented by its pixel array. -/
structure SliceRecord (r c : Nat) where
  PatientID : String
  Label : Int
  SliceIndex : Nat
  ImageSlice : Mask r c
  MaskSlice : Mask r c

/-- The all-zero slice, used as an out-of-range default. -/
def zeroMask (r c : Nat) : Mask r c := fun _ => 0

/-- The `for slice_idx in range(mask_array.shape[0])` loop of
`get_slices_2D` (lines 84-99): fetch the image slice at the current
index (an index error when the image volume is shorter), process the
mask slice, skip the index when `(None, None)` came back, otherwise
prepend the slice record. -/
def slicesLoop {r c : Nat} (pid : Int) (image : List (Mask r c)) :
    Nat → List (Mask r c) → Except PyErr (List (SliceRecord r c))
  | _, [] => .ok []
  | idx, ms :: rest =>
      match image[idx]? with
      | Option.none => .error .indexError
      | some ims =>
          match process_slice ms with
          | .error e => .error e
          | .ok Option.none => slicesLoop pid image (idx + 1) rest
          | .ok (some (reg, lbl)) =>
              match slicesLoop pid image (idx + 1) rest with
              | .error e => .error e
              | .ok tail =>
                  .ok (⟨"PR" ++ toString pid, lbl, idx, ims, reg⟩ :: tail)

/-- Embedding of `get_slices_2D` (lines 68-101 of `image_processing.py`).  The
`isinstance` checks on the image objects and on `patient_id` are
enforced by the types of this embedding; a volume is the list of its
2D slices along the leading axis. -/
def get_slices_2D {r c : Nat} (image mask : List (Mask r c)) (pid : Int) :
    Except PyErr (List (SliceRecord r c)) :=
  slicesLoop pid image 0 mask

/-- Spec-level description of the 2D slicing pass, following the spec's
words: one record per slice index, in ascending index order, for
exactly those indices where the slice processor returns a region,
carrying the `"PR"`-prefixed patient ID, the chosen label, the original
slice index, the raw intensity slice and the extracted region. -/
def slicesSpec {r c : Nat} (image mask : List (Mask r c)) (pid : Int) :
    List (SliceRecord r c) :=
  (List.range mask.length).filterMap (fun i =>
    match process_slice (mask.getD i (zeroMask r c)) with
    | .ok (some (reg, lbl)) =>
        some ⟨"PR" ++ toString pid, lbl, i, image.getD i (zeroMask r c), reg⟩
    | _ => Option.none)

theorem slicesLoop_spec {r c : Nat} (pid : Int) (image : List (Mask r c)) :
    ∀ (ms : List (Mask r c)) (idx : Nat),
    (∀ s ∈ ms, ∀ x, 0 ≤ s x) → idx + ms.length ≤ image.length →
    slicesLoop pid image idx ms = .ok ((List.range ms.length).filterMap (fun i =>
      match process_slice (ms.getD i (zeroMask r c)) with
      | .ok (some (reg, lbl)) =>
          some ⟨"PR" ++ toString pid, lbl, idx + i, image.getD (idx + i) (zeroMask r c), reg⟩
      | _ => Option.none)) := by
  intro ms
  induction ms with
  | nil =>
      intro idx hpos hlen
      simp [slicesLoop]
  | cons m0 rest ih =>
      intro idx hpos hlen
      have hidx : idx < image.length := by
        simp only [List.length_cons] at hlen
        omega
      have himg : image[idx]? = some (image.getD idx (zeroMask r c)) := by
        rw [List.getElem?_eq_getElem hidx, List.getD_eq_getElem image (zeroMask r c) hidx]
      have hm0 : ∀ x, 0 ≤ m0 x := hpos m0 (List.mem_cons_self m0 rest)
      rcases process_slice_ok m0 hm0 with ⟨o, ho⟩
      have hrec := ih (idx + 1)
        (fun s hs => hpos s (List.mem_cons_of_mem m0 hs))
        (by simp only [List.length_cons] at hlen; omega)
      have hrange : List.range (m0 :: rest).length =
          0 :: (List.range rest.length).map (· + 1) := by
        simp [List.range_succ_eq_map]
      rcases o with _ | ⟨reg, lbl⟩
      · simp only [slicesLoop, himg, ho, hrec, hrange, List.filterMap_cons,
          List.filterMap_map, List.getD_cons_zero, List.getD_cons_succ]
        congr 1
        apply List.filterMap_congr
        intro i hi
        simp only [Function.comp_apply, List.getD_cons_succ]
        have hadd : idx + (i + 1) = idx + 1 + i := by omega
        rw [hadd]
      · simp only [slicesLoop, himg, ho, hrec, hrange, List.filterMap_cons,
          List.filterMap_map, List.getD_cons_zero, List.getD_cons_succ, Nat.add_zero]
        congr 1
        congr 1
        apply List.filterMap_congr
        intro i hi
        simp only [Function.comp_apply, List.getD_cons_succ]
        have hadd : idx + (i + 1) = idx + 1 + i := by omega
        rw [hadd]

theorem get_slices_2D_eq_spec {r c : Nat} (image mask : List (Mask r c)) (pid : Int)
    (hlen : mask.length ≤ image.length) (hpos : ∀ s ∈ mask, ∀ x, 0 ≤ s x) :
    get_slices_2D image mask pid = .ok (slicesSpec image mask pid) := by
  unfold get_slices_2D slicesSpec
  have := slicesLoop_spec pid image mask 0 hpos (by omega)
  rw [this]
  congr 1
  apply List.filterMap_congr
  intro i hi
  simp only [Nat.zero_add]

/-- The single whole-volume record built by `get_volume_3D`
(lines 115-119 of `image_processing.py`). -/
structure VolumeRecord (r c : Nat) where
  PatientID : String
  ImageVolume : List (Mask r c)
  MaskVolume : List (Mask r c)

/-- Embedding of `get_volume_3D` (lines 104-119): the `isinstance` checks are
enforced by the types of this embedding; the image and mask volumes
pass through unmodified inside a single-element list. -/
def get_volume_3D {r c : Nat} (image mask : List (Mask r c)) (pid : Int) :
    List (VolumeRecord r c) :=
  [⟨"PR" ++ toString pid, image, mask⟩]

/-- Embedding of `os.path.dirname` for POSIX paths: everything up to the last slash,
with trailing slashes stripped unless the head consists of slashes
only. -/
def dirname (p : String) : String :=
  let cs := p.toList
  let k := (cs.reverse.takeWhile (fun ch => ch ≠ '/')).length
  let head := cs.take (cs.length - k)
  let head2 :=
    if head ≠ [] ∧ head.any (fun ch => ch ≠ '/') then
      (head.reverse.dropWhile (fun ch => ch = '/')).reverse
    else head
  String.mk head2

/-- Python truthiness (`not x` is `true` exactly on falsy values), as an
effectful test because numpy arrays of size other than one raise on
boolean conversion. -/
def pyTruthyE {r c : Nat} (v : PyValue r c) : Except PyErr Bool :=
  match v with
  | .int n => .ok (decide (n ≠ 0))
  | .float q => .ok (decide (q ≠ 0))
  | .str s => .ok (decide (s ≠ ""))
  | .pynone => .ok false
  | .arr m =>
      if r * c = 1 then .ok (decide (∃ x, m x ≠ 0))
      else .error (.valueError
        "The truth value of an array with more than one element is ambiguous. Use a.any() or a.all()")

/-- Embedding of `read_image_and_mask` (lines 123-151 of `image_processing.py`).
The actual file reading is the collaborator-owned boundary, abstracted
as the oracle `read` mapping a path to the volume stored there; the
validation order is that of the source: emptiness (truthiness) of both
paths, string type, same parent directory, and — only after reading —
matching volume sizes. -/
def read_image_and_mask_py {r c : Nat} (read : String → List (Mask r c))
    (image_path mask_path : PyValue r c) :
    Except PyErr (List (Mask r c) × List (Mask r c)) :=
  match pyTruthyE image_path with
  | .error e => .error e
  | .ok t1 =>
      if !t1 then .error (.valueError "Image and mask paths cannot be empty.")
      else
        match pyTruthyE mask_path with
        | .error e => .error e
        | .ok t2 =>
            if !t2 then .error (.valueError "Image and mask paths cannot be empty.")
            else
              match image_path, mask_path with
              | .str s1, .str s2 =>
                  if dirname s1 ≠ dirname s2 then
                    .error (.valueError "Image and mask must be in the same directory.")
                  else
                    if (read s1).length ≠ (read s2).length then
                      .error (.valueError "Image and mask dimensions do not match.")
                    else .ok (read s1, read s2)
              | _, _ => .error (.typeError "Image and mask paths must be strings.")

/-- The string payload of a path value (arbitrary on non-strings). -/
def pathStr {r c : Nat} (v : PyValue r c) : String :=
  match v with
  | .str s => s
  | _ => ""

/-- A pair of paths that passes every check of `read_image_and_mask`:
nonempty strings in the same directory whose stored volumes have equal
size. -/
def ValidPathPair {r c : Nat} (read : String → List (Mask r c))
    (ip mp : PyValue r c) : Bool :=
  match ip, mp with
  | .str s1, .str s2 =>
      decide (s1 ≠ "") && decide (s2 ≠ "") && decide (dirname s1 = dirname s2) &&
        decide ((read s1).length = (read s2).length)
  | _, _ => false

theorem validPathPair_elim {r c : Nat} {read : String → List (Mask r c)}
    {ip mp : PyValue r c} (h : ValidPathPair read ip mp = true) :
    ∃ s1 s2, ip = PyValue.str s1 ∧ mp = PyValue.str s2 ∧ s1 ≠ "" ∧ s2 ≠ "" ∧
      dirname s1 = dirname s2 ∧ (read s1).length = (read s2).length := by
  rcases ip with n | q | s1 | m | _ <;> rcases mp with n2 | q2 | s2 | m2 | _ <;>
    simp only [ValidPathPair, Bool.and_eq_true, decide_eq_true_eq] at h <;>
    first
      | exact absurd h (by decide)
      | exact ⟨s1, s2, rfl, rfl, h.1.1.1, h.1.1.2, h.1.2, h.2⟩

theorem read_py_str_ok {r c : Nat} (read : String → List (Mask r c))
    (s1 s2 : String) (h1 : s1 ≠ "") (h2 : s2 ≠ "")
    (h3 : dirname s1 = dirname s2) (h4 : (read s1).length = (read s2).length) :
    read_image_and_mask_py read (PyValue.str s1) (PyValue.str s2) =
      .ok (read s1, read s2) := by
  simp [read_image_and_mask_py, pyTruthyE, h1, h2, h3, h4]

theorem read_py_ok {r c : Nat} (read : String → List (Mask r c))
    (ip mp : PyValue r c) (h : ValidPathPair read ip mp = true) :
    read_image_and_mask_py read ip mp = .ok (read (pathStr ip), read (pathStr mp)) := by
  rcases validPathPair_elim h with ⟨s1, s2, rfl, rfl, h1, h2, h3, h4⟩
  rw [read_py_str_ok read s1 s2 h1 h2 h3 h4]
  rfl

/-- One patient's stored records: per-slice records in 2D mode, a
whole-volume record in 3D mode. -/
inductive PatientRecords (r c : Nat) where
  | slices (recs : List (SliceRecord r c))
  | volume (recs : List (VolumeRecord r c))

/-- Assignment `patient_dict[pr_id] = value` on the dictionary embedded
as an insertion-ordered association list: overwrite the existing entry
or append a new one. -/
def dictInsert {α : Type} (d : List (Int × α)) (k : Int) (v : α) : List (Int × α) :=
  if d.any (fun p => decide (p.1 = k)) then
    d.map (fun p => if p.1 = k then (k, v) else p)
  else d ++ [(k, v)]

/-- The `for pr_id, img_path, mask_path in zip(...)` loop of
`get_patient_image_mask_dict` (lines 164-174): read the pair, dispatch
on the mode, store the records under the raw patient ID, and fail on an
unknown mode. -/
def registryLoop {r c : Nat} (read : String → List (Mask r c)) (mode : String)
    (acc : List (Int × PatientRecords r c)) :
    List (Int × (PyValue r c × PyValue r c)) →
      Except PyErr (List (Int × PatientRecords r c))
  | [] => .ok acc
  | (pid, ip, mp) :: rest =>
      match read_image_and_mask_py read ip mp with
      | .error e => .error e
      | .ok (img, msk) =>
          if mode = "2D" then
            match get_slices_2D img msk pid with
            | .error e => .error e
            | .ok ps => registryLoop read mode (dictInsert acc pid (.slices ps)) rest
          else if mode = "3D" then
            registryLoop read mode
              (dictInsert acc pid (.volume (get_volume_3D img msk pid))) rest
          else .error (.valueError "Mode should be '2D' or '3D'")

/-- Embedding of `get_patient_image_mask_dict` (lines 155-176 of
`image_processing.py`). -/
def get_patient_image_mask_dict {r c : Nat} (read : String → List (Mask r c))
    (imgs_path masks_path : List (PyValue r c)) (patient_ids : List Int)
    (mode : String) : Except PyErr (List (Int × PatientRecords r c)) :=
  if patient_ids.length = 0 then
    .error (.valueError "The patient_ids list cannot be empty.")
  else if imgs_path.length ≠ masks_path.length ∨
      imgs_path.length ≠ patient_ids.length then
    .error (.valueError "The number of images, masks, and patient_ids must be the same.")
  else
    registryLoop read mode [] (patient_ids.zip (imgs_path.zip masks_path))

/-- The whole-volume record stored for one zipped triple in 3D mode. -/
def volumeEntry {r c : Nat} (read : String → List (Mask r c))
    (t : Int × (PyValue r c × PyValue r c)) : PatientRecords r c :=
  PatientRecords.volume (get_volume_3D (read (pathStr t.2.1)) (read (pathStr t.2.2)) t.1)

theorem registryLoop_3D {r c : Nat} (read : String → List (Mask r c)) :
    ∀ (l : List (Int × (PyValue r c × PyValue r c)))
      (acc : List (Int × PatientRecords r c)),
    (∀ t ∈ l, ValidPathPair read t.2.1 t.2.2 = true) →
    registryLoop read "3D" acc l =
      .ok (l.foldl (fun d t => dictInsert d t.1 (volumeEntry read t)) acc) := by
  intro l
  induction l with
  | nil => intro acc _; rfl
  | cons t rest ih =>
      intro acc hvalid
      rcases t with ⟨pid, ip, mp⟩
      have hv : ValidPathPair read ip mp = true :=
        hvalid (pid, ip, mp) (List.mem_cons_self _ _)
      have hread := read_py_ok read ip mp hv
      have hrec := ih (dictInsert acc pid (volumeEntry read (pid, ip, mp)))
        (fun t ht => hvalid t (List.mem_cons_of_mem _ ht))
      simp only [registryLoop, hread, List.foldl_cons]
      rw [if_pos trivial]
      exact hrec

theorem dictInsert_keys {α : Type} (d : List (Int × α)) (k : Int) (v : α) (k2 : Int) :
    k2 ∈ (dictInsert d k v).map Prod.fst ↔ k2 ∈ d.map Prod.fst ∨ k2 = k := by
  unfold dictInsert
  by_cases hc : d.any (fun p => decide (p.1 = k)) = true
  · rw [if_pos hc]
    have hkeys : (d.map (fun p => if p.1 = k then (k, v) else p)).map Prod.fst =
        d.map Prod.fst := by
      rw [List.map_map]
      apply List.map_congr_left
      intro p _
      by_cases hpk : p.1 = k
      · simp [hpk]
      · simp [hpk]
    rw [hkeys]
    rcases List.any_eq_true.1 hc with ⟨p, hp, hpk⟩
    have hkmem : k ∈ d.map Prod.fst :=
      List.mem_map.2 ⟨p, hp, of_decide_eq_true hpk⟩
    constructor
    · exact Or.inl
    · rintro (h | rfl)
      · exact h
      · exact hkmem
  · rw [if_neg hc, List.map_append]
    simp [List.mem_append]

theorem dictInsert_mem_elim {α : Type} {d : List (Int × α)} {k : Int} {v : α}
    {p : Int × α} (h : p ∈ dictInsert d k v) : p ∈ d ∨ p = (k, v) := by
  unfold dictInsert at h
  by_cases hc : d.any (fun q => decide (q.1 = k)) = true
  · rw [if_pos hc] at h
    rcases List.mem_map.1 h with ⟨q, hq, hqp⟩
    by_cases hqk : q.1 = k
    · right
      rw [if_pos hqk] at hqp
      exact hqp.symm
    · left
      rw [if_neg hqk] at hqp
      exact hqp ▸ hq
  · rw [if_neg hc] at h
    rcases List.mem_append.1 h with h | h
    · exact Or.inl h
    · right
      simpa using h

theorem foldl_dictInsert_keys {α β : Type} (f : Int × β → α) :
    ∀ (l : List (Int × β)) (acc : List (Int × α)) (k : Int),
    k ∈ (l.foldl (fun d t => dictInsert d t.1 (f t)) acc).map Prod.fst ↔
      k ∈ acc.map Prod.fst ∨ k ∈ l.map Prod.fst := by
  intro l
  induction l with
  | nil => simp
  | cons t rest ih =>
      intro acc k
      rw [List.foldl_cons, ih, dictInsert_keys]
      simp only [List.map_cons, List.mem_cons]
      tauto

theorem foldl_dictInsert_mem {α β : Type} (f : Int × β → α) :
    ∀ (l : List (Int × β)) (acc : List (Int × α)) (p : Int × α),
    p ∈ l.foldl (fun d t => dictInsert d t.1 (f t)) acc →
      p ∈ acc ∨ ∃ t ∈ l, p = (t.1, f t) := by
  intro l
  induction l with
  | nil =>
      intro acc p h
      exact Or.inl h
  | cons t rest ih =>
      intro acc p h
      rw [List.foldl_cons] at h
      rcases ih (dictInsert acc t.1 (f t)) p h with hacc | ⟨u, hu, hup⟩
      · rcases dictInsert_mem_elim hacc with hacc | rfl
        · exact Or.inl hacc
        · exact Or.inr ⟨t, List.mem_cons_self _ _, rfl⟩
      · exact Or.inr ⟨u, List.mem_cons_of_mem _ hu, hup⟩

theorem componentGrid_ne_zero_iff {r c : Nat} (g : BGrid r c) {lv : Int}
    (hlv : lv ≠ 0) (id : Nat) (x : Cell r c) :
    componentGrid g lv id x ≠ 0 ↔ labelAt g x = id := by
  unfold componentGrid
  by_cases h : labelAt g x = id
  · simp [h, hlv]
  · simp [h]

theorem binOf_eq {r c : Nat} {m : Mask r c} {lv : Int} {x : Cell r c}
    (h : binOf m lv x = true) : m x = lv := by
  unfold binOf at h
  exact of_decide_eq_true h

/-- Claim C1: for every 2D integer mask slice and non-negative integer
label value, a non-`None` result of `extract_largest_region` is a
same-shaped grid (by the type of the embedding) whose nonzero cells all
hold the label value, are a subset of the input cells equal to it, form
exactly one 4-connected component of that label, and have cardinality
at least that of every other 4-connected component of the label; and
the result is `None` when no cell equals the label value. -/
theorem extract_largest_region_correct {r c : Nat} (m : Mask r c) (lv : Int)
    (hlv : 0 ≤ lv) :
    (∀ out, extract_largest_region m lv = some out →
      (∀ x, out x ≠ 0 → out x = lv ∧ m x = lv) ∧
      IsComponent (binOf m lv) (Finset.univ.filter (fun x => out x ≠ 0)) ∧
      (∀ S, IsComponent (binOf m lv) S →
        S.card ≤ (Finset.univ.filter (fun x => out x ≠ 0)).card)) ∧
    ((∀ x, m x ≠ lv) → extract_largest_region m lv = Option.none) := by
  constructor
  · intro out hout
    rcases lt_or_eq_of_le hlv with hpos | hzero
    · rcases extract_some_char m hpos hout with ⟨k, hk, houteq, hcpos, hallmax, hmin⟩
      have hlvne : lv ≠ 0 := ne_of_gt hpos
      have hfilter : Finset.univ.filter (fun x => out x ≠ 0) =
          Finset.univ.filter (fun x => labelAt (binOf m lv) x = k + 1) := by
        ext x
        simp only [Finset.mem_filter, Finset.mem_univ, true_and]
        rw [houteq]
        exact componentGrid_ne_zero_iff (binOf m lv) hlvne (k + 1) x
      refine ⟨?_, ?_, ?_⟩
      · intro x hx
        have hlab : labelAt (binOf m lv) x = k + 1 := by
          rw [houteq] at hx
          exact (componentGrid_ne_zero_iff (binOf m lv) hlvne (k + 1) x).1 hx
        have hgx : binOf m lv x = true :=
          labelAt_set_of_ne_zero (binOf m lv) x (by omega)
        refine ⟨?_, binOf_eq hgx⟩
        rw [houteq]
        unfold componentGrid
        rw [if_pos hlab, one_mul]
      · rw [hfilter]
        exact class_isComponent (binOf m lv) k hcpos
      · intro S hS
        rcases component_is_class (binOf m lv) S hS with ⟨id, h1, h2, hSeq⟩
        rw [hfilter, hSeq]
        exact hallmax id h1 h2
    · exfalso
      have := extract_none_of_nonpos m (le_of_eq hzero.symm)
      rw [this] at hout
      exact Option.noConfusion hout
  · intro h
    exact extract_none_of_absent m lv h

/-- Concrete 2 by 2 slice used to instantiate Claim C1: a single cell of
label 1 in the top-left corner. -/
def exMaskA : Mask 2 2 := fun x => if x.1 = 0 ∧ x.2 = 0 then 1 else 0

theorem extract_largest_region_correct_witness :
    (0 : Int) ≤ 1 ∧
    ((∀ out, extract_largest_region exMaskA 1 = some out →
      (∀ x, out x ≠ 0 → out x = 1 ∧ exMaskA x = 1) ∧
      IsComponent (binOf exMaskA 1) (Finset.univ.filter (fun x => out x ≠ 0)) ∧
      (∀ S, IsComponent (binOf exMaskA 1) S →
        S.card ≤ (Finset.univ.filter (fun x => out x ≠ 0)).card)) ∧
    ((∀ x, exMaskA x ≠ 1) → extract_largest_region exMaskA 1 = Option.none)) :=
  ⟨by decide, extract_largest_region_correct exMaskA 1 (by decide)⟩

/-- Claim C10: for every 2D integer mask slice, extracting the
background label `0` returns `None` — component areas are counted as
cells strictly greater than zero after multiplication by the label
value, so a zero label can never beat the initial area `0`. -/
theorem extract_background_none (r c : Nat) (m : Mask r c) :
    extract_largest_region m 0 = Option.none :=
  extract_none_of_nonpos m (le_refl 0)

/-- Concrete 2 by 2 slice with two diagonal tied components of the
background label 0, used against Claim C4: two zero-cells at the
diagonal form two tied 4-connected components of label 0, yet the
extraction returns `None` rather than the first-encountered one. -/
def exMaskC4 : Mask 2 2 := fun x => if x.1 = x.2 then 0 else 1

theorem extract_tie_background_counterexample :
    numLabels (binOf exMaskC4 0) = 2 ∧
    classCard (binOf exMaskC4 0) 1 = 1 ∧
    classCard (binOf exMaskC4 0) 2 = 1 ∧
    extract_largest_region exMaskC4 0 = Option.none := by
  refine ⟨?_, ?_, ?_, ?_⟩ <;> decide

/-- Claim C4 (amended to positive label values): when two or more
4-connected components of a positive label value tie for the maximum
pixel count, `extract_largest_region` returns the tied component with
the lowest component ID assigned by the labeling pass. -/
theorem extract_tie_lowest_id {r c : Nat} (m : Mask r c) (lv : Int)
    (hlv : 0 < lv) (S T : Finset (Cell r c))
    (hS : IsComponent (binOf m lv) S) (hT : IsComponent (binOf m lv) T)
    (hST : S ≠ T) (hcard : S.card = T.card)
    (hmax : ∀ U, IsComponent (binOf m lv) U → U.card ≤ S.card) :
    ∃ out id, extract_largest_region m lv = some out ∧
      1 ≤ id ∧ id ≤ numLabels (binOf m lv) ∧
      Finset.univ.filter (fun x => out x ≠ 0) =
        Finset.univ.filter (fun x => labelAt (binOf m lv) x = id) ∧
      classCard (binOf m lv) id = S.card ∧
      (∀ id2, 1 ≤ id2 → id2 ≤ numLabels (binOf m lv) →
        classCard (binOf m lv) id2 = S.card → id ≤ id2) := by
  rcases hS with ⟨⟨a, ha⟩, htrue, hconn, hclosed⟩
  have hga : binOf m lv a = true := htrue a ha
  rcases extract_some_of_present m hlv a (binOf_eq hga) with ⟨out, hout⟩
  rcases extract_some_char m hlv hout with ⟨k, hk, houteq, hcpos, hallmax, hmin⟩
  have hlvne : lv ≠ 0 := ne_of_gt hlv
  have hfilter : Finset.univ.filter (fun x => out x ≠ 0) =
      Finset.univ.filter (fun x => labelAt (binOf m lv) x = k + 1) := by
    ext x
    simp only [Finset.mem_filter, Finset.mem_univ, true_and]
    rw [houteq]
    exact componentGrid_ne_zero_iff (binOf m lv) hlvne (k + 1) x
  have hScard : ∃ idS, 1 ≤ idS ∧ idS ≤ numLabels (binOf m lv) ∧
      S.card = classCard (binOf m lv) idS := by
    rcases component_is_class (binOf m lv) S ⟨⟨a, ha⟩, htrue, hconn, hclosed⟩ with
      ⟨idS, h1, h2, hSeq⟩
    exact ⟨idS, h1, h2, by rw [hSeq]; rfl⟩
  rcases hScard with ⟨idS, hS1, hS2, hSeq⟩
  have hcomp : IsComponent (binOf m lv) (Finset.univ.filter
      (fun x => labelAt (binOf m lv) x = k + 1)) :=
    class_isComponent (binOf m lv) k hcpos
  have hklecard : classCard (binOf m lv) (k + 1) ≤ S.card := by
    have := hmax _ hcomp
    calc classCard (binOf m lv) (k + 1)
        = (Finset.univ.filter (fun x => labelAt (binOf m lv) x = k + 1)).card := rfl
      _ ≤ S.card := this
  have hcardle : S.card ≤ classCard (binOf m lv) (k + 1) := by
    rw [hSeq]
    exact hallmax idS hS1 hS2
  have hkcard : classCard (binOf m lv) (k + 1) = S.card :=
    Nat.le_antisymm hklecard hcardle
  refine ⟨out, k + 1, hout, by omega, by omega, hfilter, hkcard, ?_⟩
  intro id2 h1 h2 hc2
  exact hmin id2 h1 h2 (by omega)

/-- Concrete 2 by 2 slice with two tied components of label 1 at the
anti-diagonal, used to instantiate the amended Claim C4. -/
def exMaskC4w : Mask 2 2 := fun x => if x.1 = x.2 then 1 else 0

theorem extract_tie_lowest_id_witness :
    (0 : Int) < 1 ∧
    (∃ out id, extract_largest_region exMaskC4w 1 = some out ∧
      1 ≤ id ∧ id ≤ numLabels (binOf exMaskC4w 1) ∧
      Finset.univ.filter (fun x => out x ≠ 0) =
        Finset.univ.filter (fun x => labelAt (binOf exMaskC4w 1) x = id) ∧
      classCard (binOf exMaskC4w 1) id = ({((0 : Fin 2), (0 : Fin 2))} :
        Finset (Cell 2 2)).card ∧
      (∀ id2, 1 ≤ id2 → id2 ≤ numLabels (binOf exMaskC4w 1) →
        classCard (binOf exMaskC4w 1) id2 = ({((0 : Fin 2), (0 : Fin 2))} :
          Finset (Cell 2 2)).card → id ≤ id2)) := by
  refine ⟨by decide, ?_⟩
  apply extract_tie_lowest_id exMaskC4w 1 (by decide)
    {((0 : Fin 2), (0 : Fin 2))} {((1 : Fin 2), (1 : Fin 2))}
  · rw [isComponent_iff]
    decide
  · rw [isComponent_iff]
    decide
  · decide
  · decide
  · intro U hU
    rcases (isComponent_iff _ _).1 hU with ⟨b, hb, hEq⟩
    subst hEq
    clear hU
    revert hb
    revert b
    decide

/-- Claim C9: on a slice whose cells are all non-negative with at least
one nonzero cell, `process_slice` returns a region paired with the
smallest nonzero value present, and the trailing `(None, None)` return
is unreachable because `extract_largest_region` never returns `None`
for a positive label actually present in the slice. -/
theorem process_slice_min_label {r c : Nat} (m : Mask r c)
    (hpos : ∀ x, 0 ≤ m x) (hnz : ∃ x, m x ≠ 0) :
    (∃ reg l0, process_slice m = .ok (some (reg, l0)) ∧
      (∃ x, m x = l0) ∧ l0 ≠ 0 ∧
      (∀ v, (∃ x, m x = v) → v ≠ 0 → l0 ≤ v)) ∧
    (∀ lv : Int, 0 < lv → (∃ x, m x = lv) →
      extract_largest_region m lv ≠ Option.none) := by
  rcases hnz with ⟨x0, hx0⟩
  constructor
  · rcases process_slice_core m hpos x0 hx0 with
      ⟨reg, l0, hps, hext, hpres, hne, hmin⟩
    exact ⟨reg, l0, hps, hpres, hne, hmin⟩
  · intro lv hlv ⟨x, hx⟩
    rcases extract_some_of_present m hlv x hx with ⟨out, hout⟩
    rw [hout]
    exact Option.noConfusion

/-- Concrete 2 by 2 slice with one labeled cell, instantiating C9. -/
def exMaskB : Mask 2 2 := fun x => if x.1 = 1 ∧ x.2 = 1 then 3 else 0

theorem process_slice_min_label_witness :
    (∀ x, 0 ≤ exMaskB x) ∧
    ((∃ reg l0, process_slice exMaskB = .ok (some (reg, l0)) ∧
      (∃ x, exMaskB x = l0) ∧ l0 ≠ 0 ∧
      (∀ v, (∃ x, exMaskB x = v) → v ≠ 0 → l0 ≤ v)) ∧
    (∀ lv : Int, 0 < lv → (∃ x, exMaskB x = lv) →
      extract_largest_region exMaskB lv ≠ Option.none)) :=
  ⟨by decide, process_slice_min_label exMaskB (by decide) ⟨((1 : Fin 2), (1 : Fin 2)), by decide⟩⟩

/-- Claim C2: `process_slice` returns `(None, None)` without raising on
an all-zero slice; otherwise (on a well-formed slice, all cells
non-negative) it walks the distinct nonzero values in ascending order
and returns the region and label of the first label whose extraction is
non-`None` — regardless of larger regions under later labels. -/
theorem process_slice_first_match {r c : Nat} (m : Mask r c) :
    ((∀ x, m x = 0) → process_slice m = .ok Option.none) ∧
    ((∀ x, 0 ≤ m x) → (∃ x, m x ≠ 0) →
      ∃ reg l0, process_slice m = .ok (some (reg, l0)) ∧
        l0 ∈ nonzeroLabels m ∧
        extract_largest_region m l0 = some reg ∧
        (∀ v ∈ nonzeroLabels m, v < l0 →
          extract_largest_region m v = Option.none)) := by
  constructor
  · exact process_slice_all_zero m
  · intro hpos ⟨x0, hx0⟩
    rcases process_slice_core m hpos x0 hx0 with
      ⟨reg, l0, hps, hext, hpres, hne, hmin⟩
    refine ⟨reg, l0, hps, (mem_nonzeroLabels m l0).2 ⟨hpres, hne⟩, hext, ?_⟩
    intro v hv hvlt
    exfalso
    rcases (mem_nonzeroLabels m v).1 hv with ⟨hvpres, hvne⟩
    exact absurd hvlt (not_lt.2 (hmin v hvpres hvne))

/-- The 3 by 6 slice of the spec's ascending-first-match example: a
2 by 2 block of label 1 (area 4) and a 3 by 3 block of label 2
(area 9). -/
def exMaskC2 : Mask 3 6 := fun x =>
  if (x.2 : Nat) ≥ 3 then 2 else if (x.1 : Nat) ≤ 1 ∧ (x.2 : Nat) ≤ 1 then 1 else 0

theorem process_slice_first_match_witness :
    (∀ x, 0 ≤ exMaskC2 x) ∧
    ((∀ x, exMaskC2 x = 0) → process_slice exMaskC2 = .ok Option.none) ∧
    ((∀ x, 0 ≤ exMaskC2 x) → (∃ x, exMaskC2 x ≠ 0) →
      ∃ reg l0, process_slice exMaskC2 = .ok (some (reg, l0)) ∧
        l0 ∈ nonzeroLabels exMaskC2 ∧
        extract_largest_region exMaskC2 l0 = some reg ∧
        (∀ v ∈ nonzeroLabels exMaskC2, v < l0 →
          extract_largest_region exMaskC2 v = Option.none)) :=
  ⟨by decide, process_slice_first_match exMaskC2⟩

/-- Claim C3: on a valid volume pair (image at least as long as the
mask along the leading axis, mask cells non-negative), `get_slices_2D`
returns exactly the records described by `slicesSpec`: one record per
slice index in ascending order for exactly those slices where
`process_slice` finds a region, skipping empty slices without error and
without renumbering, each record carrying `"PR" + str(patient_id)`, the
chosen label, the original slice index, the raw intensity slice and the
extracted region mask. -/
theorem get_slices_2D_records {r c : Nat} (image mask : List (Mask r c)) (pid : Int)
    (hlen : image.length = mask.length) (hpos : ∀ s ∈ mask, ∀ x, 0 ≤ s x) :
    get_slices_2D image mask pid = .ok (slicesSpec image mask pid) :=
  get_slices_2D_eq_spec image mask pid (le_of_eq hlen.symm) hpos

/-- Three-slice volumes instantiating C3: slices 0 and 2 carry label 1,
slice 1 is empty. -/
def exSliceOn : Mask 2 2 := fun x => if x.1 = 0 ∧ x.2 = 0 then 1 else 0

def exMask3 : List (Mask 2 2) := [exSliceOn, zeroMask 2 2, exSliceOn]

def exImage3 : List (Mask 2 2) := [fun _ => 7, fun _ => 8, fun _ => 9]

theorem get_slices_2D_records_witness :
    exImage3.length = exMask3.length ∧
    get_slices_2D exImage3 exMask3 7 = .ok (slicesSpec exImage3 exMask3 7) ∧
    (slicesSpec exImage3 exMask3 7).map (fun rec => rec.SliceIndex) = [0, 2] ∧
    (slicesSpec exImage3 exMask3 7).map (fun rec => rec.PatientID) = ["PR7", "PR7"] :=
  ⟨rfl, get_slices_2D_records exImage3 exMask3 7 rfl (by decide), by decide, by decide⟩

/-- Helper for Claim C5, covering the `"3D"` mode branch: the registry
keys are exactly the raw patient IDs, and every stored value is a
single-element sequence whose record holds the patient's full image and
mask volumes passed through unmodified. -/
theorem registry_3D_spec {r c : Nat} (read : String → List (Mask r c))
    (imgs masks : List (PyValue r c)) (pids : List Int)
    (hne : pids.length ≠ 0)
    (hlen1 : imgs.length = masks.length) (hlen2 : imgs.length = pids.length)
    (hvalid : ∀ t ∈ pids.zip (imgs.zip masks),
      ValidPathPair read t.2.1 t.2.2 = true) :
    ∃ d, get_patient_image_mask_dict read imgs masks pids "3D" = .ok d ∧
      (∀ k, k ∈ d.map Prod.fst ↔ k ∈ pids) ∧
      (∀ p ∈ d, ∃ s1 s2,
        (p.1, (PyValue.str s1, PyValue.str s2)) ∈ pids.zip (imgs.zip masks) ∧
        p.2 = PatientRecords.volume [⟨"PR" ++ toString p.1, read s1, read s2⟩]) := by
  have hmain : get_patient_image_mask_dict read imgs masks pids "3D" =
      registryLoop read "3D" [] (pids.zip (imgs.zip masks)) := by
    unfold get_patient_image_mask_dict
    rw [if_neg hne, if_neg (by push_neg; exact ⟨hlen1, hlen2⟩)]
  rw [hmain, registryLoop_3D read _ [] hvalid]
  refine ⟨_, rfl, ?_, ?_⟩
  · intro k
    rw [foldl_dictInsert_keys]
    have hzlen : pids.length ≤ (imgs.zip masks).length := by
      rw [List.length_zip]
      omega
    rw [List.map_fst_zip pids (imgs.zip masks) hzlen]
    simp
  · intro p hp
    rcases foldl_dictInsert_mem (volumeEntry read) _ [] p hp with hacc | ⟨t, ht, rfl⟩
    · exact absurd hacc (by simp)
    · rcases t with ⟨pid, ip, mp⟩
      rcases validPathPair_elim (hvalid (pid, ip, mp) ht) with
        ⟨s1, s2, rfl, rfl, -, -, -, -⟩
      exact ⟨s1, s2, ht, rfl⟩

/-- The per-slice records stored for one zipped triple in 2D mode. -/
def slicesEntry {r c : Nat} (read : String → List (Mask r c))
    (t : Int × (PyValue r c × PyValue r c)) : PatientRecords r c :=
  PatientRecords.slices
    (slicesSpec (read (pathStr t.2.1)) (read (pathStr t.2.2)) t.1)

theorem registryLoop_2D {r c : Nat} (read : String → List (Mask r c)) :
    ∀ (l : List (Int × (PyValue r c × PyValue r c)))
      (acc : List (Int × PatientRecords r c)),
    (∀ t ∈ l, ValidPathPair read t.2.1 t.2.2 = true) →
    (∀ t ∈ l, ∀ s ∈ read (pathStr t.2.2), ∀ x, 0 ≤ s x) →
    registryLoop read "2D" acc l =
      .ok (l.foldl (fun d t => dictInsert d t.1 (slicesEntry read t)) acc) := by
  intro l
  induction l with
  | nil => intro acc _ _; rfl
  | cons t rest ih =>
      intro acc hvalid hpos
      rcases t with ⟨pid, ip, mp⟩
      have hv : ValidPathPair read ip mp = true :=
        hvalid (pid, ip, mp) (List.mem_cons_self _ _)
      have hread := read_py_ok read ip mp hv
      have hps : ∀ s ∈ read (pathStr mp), ∀ x, 0 ≤ s x :=
        hpos (pid, ip, mp) (List.mem_cons_self _ _)
      have hslices : get_slices_2D (read (pathStr ip)) (read (pathStr mp)) pid =
          .ok (slicesSpec (read (pathStr ip)) (read (pathStr mp)) pid) := by
        apply get_slices_2D_eq_spec
        · rcases validPathPair_elim hv with ⟨s1, s2, rfl, rfl, -, -, -, hlen⟩
          simp only [pathStr]
          omega
        · exact hps
      have hrec := ih (dictInsert acc pid (slicesEntry read (pid, ip, mp)))
        (fun u hu => hvalid u (List.mem_cons_of_mem _ hu))
        (fun u hu => hpos u (List.mem_cons_of_mem _ hu))
      simp only [registryLoop, hread, List.foldl_cons]
      rw [if_pos trivial]
      simp only [hslices]
      exact hrec

/-- Claim C5: for every valid input (a recognized mode, non-empty
equal-length sequences, path pairs passing the read validation, and —
for the 2D mode, where slices are processed — mask volumes satisfying
the data model's all-cells-non-negative invariant), the returned
registry has exactly the raw (unformatted) patient IDs as keys — the
`"PR"` prefix appears only inside the stored records — and in `"3D"`
mode each key maps to a single-element sequence whose record holds the
patient's full image and mask volumes passed through unmodified, with
no per-slice decomposition. -/
theorem registry_raw_keys {r c : Nat} (read : String → List (Mask r c))
    (imgs masks : List (PyValue r c)) (pids : List Int) (mode : String)
    (hmode : mode = "2D" ∨ mode = "3D")
    (hne : pids.length ≠ 0)
    (hlen1 : imgs.length = masks.length) (hlen2 : imgs.length = pids.length)
    (hvalid : ∀ t ∈ pids.zip (imgs.zip masks),
      ValidPathPair read t.2.1 t.2.2 = true)
    (hpos : ∀ t ∈ pids.zip (imgs.zip masks),
      ∀ s ∈ read (pathStr t.2.2), ∀ x, 0 ≤ s x) :
    ∃ d, get_patient_image_mask_dict read imgs masks pids mode = .ok d ∧
      (∀ k, k ∈ d.map Prod.fst ↔ k ∈ pids) ∧
      (mode = "3D" → ∀ p ∈ d, ∃ s1 s2,
        (p.1, (PyValue.str s1, PyValue.str s2)) ∈ pids.zip (imgs.zip masks) ∧
        p.2 = PatientRecords.volume [⟨"PR" ++ toString p.1, read s1, read s2⟩]) := by
  have hzlen : pids.length ≤ (imgs.zip masks).length := by
    rw [List.length_zip]
    omega
  rcases hmode with rfl | rfl
  · have hmain : get_patient_image_mask_dict read imgs masks pids "2D" =
        registryLoop read "2D" [] (pids.zip (imgs.zip masks)) := by
      unfold get_patient_image_mask_dict
      rw [if_neg hne, if_neg (by push_neg; exact ⟨hlen1, hlen2⟩)]
    rw [hmain, registryLoop_2D read _ [] hvalid hpos]
    refine ⟨_, rfl, ?_, ?_⟩
    · intro k
      rw [foldl_dictInsert_keys, List.map_fst_zip pids (imgs.zip masks) hzlen]
      simp
    · intro hcontra
      exact absurd hcontra (by decide)
  · rcases registry_3D_spec read imgs masks pids hne hlen1 hlen2 hvalid with
      ⟨d, hd, hkeys, hmem⟩
    exact ⟨d, hd, hkeys, fun _ => hmem⟩

/-- The concrete reading oracle used by the registry witnesses. -/
def read0 : String → List (Mask 1 1) := fun _ => [zeroMask 1 1]

/-- Concrete path lists used by the C5 witness. -/
def exImgsP : List (PyValue 1 1) := [PyValue.str "d/a", PyValue.str "d/b"]

def exMasksP : List (PyValue 1 1) := [PyValue.str "d/c", PyValue.str "d/e"]

theorem registry_raw_keys_witness :
    ([1, 2] : List Int).length ≠ 0 ∧
    (∃ d, get_patient_image_mask_dict read0 exImgsP exMasksP [1, 2] "3D" = .ok d ∧
      (∀ k, k ∈ d.map Prod.fst ↔ k ∈ ([1, 2] : List Int)) ∧
      ("3D" = "3D" → ∀ p ∈ d, ∃ s1 s2,
        (p.1, (PyValue.str s1, PyValue.str s2)) ∈
          ([1, 2] : List Int).zip (exImgsP.zip exMasksP) ∧
        p.2 = PatientRecords.volume [⟨"PR" ++ toString p.1, read0 s1, read0 s2⟩])) ∧
    (∃ d, get_patient_image_mask_dict read0 exImgsP exMasksP [1, 2] "2D" = .ok d ∧
      (∀ k, k ∈ d.map Prod.fst ↔ k ∈ ([1, 2] : List Int)) ∧
      ("2D" = "3D" → ∀ p ∈ d, ∃ s1 s2,
        (p.1, (PyValue.str s1, PyValue.str s2)) ∈
          ([1, 2] : List Int).zip (exImgsP.zip exMasksP) ∧
        p.2 = PatientRecords.volume [⟨"PR" ++ toString p.1, read0 s1, read0 s2⟩])) :=
  ⟨by decide,
   registry_raw_keys read0 exImgsP exMasksP [1, 2] "3D" (Or.inr rfl)
     (by decide) rfl rfl (by decide) (by decide),
   registry_raw_keys read0 exImgsP exMasksP [1, 2] "2D" (Or.inl rfl)
     (by decide) rfl rfl (by decide) (by decide)⟩

/-- Counterexample to Claim C6 as stated: with non-empty, equal-length
inputs whose first paths are empty strings and a bogus mode, the raised
value error is the empty-paths error from `read_image_and_mask`, not
the mode error, because the mode is only examined inside the loop after
the read. -/
theorem registry_mode_error_counterexample :
    get_patient_image_mask_dict read0 ([PyValue.str ""] : List (PyValue 1 1))
      ([PyValue.str ""] : List (PyValue 1 1)) [1] "BOGUS" =
      .error (.valueError "Image and mask paths cannot be empty.") ∧
    PyErr.valueError "Image and mask paths cannot be empty." ≠
      PyErr.valueError "Mode should be '2D' or '3D'" :=
  ⟨rfl, by decide⟩

/-- Claim C6 (third part amended): the empty-`patient_ids` error with
its exact message; a value error whenever the three sequences differ in
length; and the exact mode error for every mode other than `"2D"` and
`"3D"` given non-empty equal-length inputs whose first image and mask
paths pass the read validation (non-empty strings, same directory,
equal stored sizes). -/
theorem registry_errors {r c : Nat} (read : String → List (Mask r c)) :
    (∀ (imgs masks : List (PyValue r c)) (mode : String),
      get_patient_image_mask_dict read imgs masks [] mode =
        .error (.valueError "The patient_ids list cannot be empty.")) ∧
    (∀ (imgs masks : List (PyValue r c)) (pids : List Int) (mode : String),
      imgs.length ≠ masks.length ∨ imgs.length ≠ pids.length →
      ∃ msg, get_patient_image_mask_dict read imgs masks pids mode =
        .error (.valueError msg)) ∧
    (∀ (s1 s2 : String) (imgs masks : List (PyValue r c)) (p : Int)
      (pids : List Int) (mode : String),
      s1 ≠ "" → s2 ≠ "" → dirname s1 = dirname s2 →
      (read s1).length = (read s2).length →
      imgs.length = masks.length → imgs.length = pids.length →
      mode ≠ "2D" → mode ≠ "3D" →
      get_patient_image_mask_dict read (PyValue.str s1 :: imgs)
        (PyValue.str s2 :: masks) (p :: pids) mode =
        .error (.valueError "Mode should be '2D' or '3D'")) := by
  refine ⟨?_, ?_, ?_⟩
  · intro imgs masks mode
    simp [get_patient_image_mask_dict]
  · intro imgs masks pids mode h
    unfold get_patient_image_mask_dict
    by_cases hp : pids.length = 0
    · rw [if_pos hp]
      exact ⟨_, rfl⟩
    · rw [if_neg hp, if_pos h]
      exact ⟨_, rfl⟩
  · intro s1 s2 imgs masks p pids mode h1 h2 h3 h4 hl1 hl2 hm1 hm2
    unfold get_patient_image_mask_dict
    rw [if_neg (by simp), if_neg (by push_neg; constructor <;> simpa)]
    have hzip : (p :: pids).zip ((PyValue.str s1 :: imgs).zip
        (PyValue.str s2 :: masks)) =
        (p, (PyValue.str s1, PyValue.str s2)) :: pids.zip (imgs.zip masks) := rfl
    rw [hzip]
    simp only [registryLoop, read_py_str_ok read s1 s2 h1 h2 h3 h4]
    rw [if_neg hm1, if_neg hm2]

theorem registry_errors_witness :
    get_patient_image_mask_dict read0 ([] : List (PyValue 1 1)) [] [] "2D" =
      .error (.valueError "The patient_ids list cannot be empty.") ∧
    (∃ msg, get_patient_image_mask_dict read0
      ([PyValue.str "a"] : List (PyValue 1 1)) [] [] "2D" =
        .error (.valueError msg)) ∧
    get_patient_image_mask_dict read0 ([PyValue.str "d/a"] : List (PyValue 1 1))
      ([PyValue.str "d/b"] : List (PyValue 1 1)) [5] "XX" =
      .error (.valueError "Mode should be '2D' or '3D'") :=
  ⟨(registry_errors read0).1 [] [] "2D",
   (registry_errors read0).2.1 [PyValue.str "a"] [] [] "2D" (by decide),
   (registry_errors read0).2.2 "d/a" "d/b" [] [] 5 [] "XX"
     (by decide) (by decide) rfl rfl rfl rfl (by decide) (by decide)⟩

/-- Claim C7: the validation prefix of `extract_largest_region` raises
the exact integer type error for every non-integer label value (given a
grid mask), the exact negativity value error for every negative integer
label, and the swapped-arguments type error when the mask is an integer
scalar and the label a grid. -/
theorem extract_validation_errors (r c : Nat) :
    (∀ (m : Mask r c) (lv : PyValue r c), (∀ n : Int, lv ≠ PyValue.int n) →
      extract_region_validation (PyValue.arr m) lv =
        .error (.typeError "Label value must be an integer")) ∧
    (∀ (m : Mask r c) (n : Int), n < 0 →
      extract_region_validation (PyValue.arr m) (PyValue.int n) =
        .error (.valueError "Label value cannot be negative")) ∧
    (∀ (k : Int) (g2 : Mask r c),
      extract_region_validation (PyValue.int k) (PyValue.arr g2) =
        .error (.typeError
          "Inputs appear to be swapped. Expected mask_slice as a numpy array and label_value as an integer.")) := by
  refine ⟨?_, ?_, ?_⟩
  · intro m lv h
    rcases lv with n | q | s | a | _
    · exact absurd rfl (h n)
    · rfl
    · rfl
    · rfl
    · rfl
  · intro m n hn
    simp [extract_region_validation, hn]
  · intro k g2
    rfl

/-- The 1 by 1 zero grid used to instantiate the validation claims. -/
def exMask11 : Mask 1 1 := fun _ => 0

theorem extract_validation_errors_witness :
    extract_region_validation (PyValue.arr exMask11) (PyValue.str "x") =
      .error (.typeError "Label value must be an integer") ∧
    extract_region_validation (PyValue.arr exMask11) (PyValue.int (-1)) =
      .error (.valueError "Label value cannot be negative") ∧
    extract_region_validation (PyValue.int 3) (PyValue.arr exMask11) =
      .error (.typeError
        "Inputs appear to be swapped. Expected mask_slice as a numpy array and label_value as an integer.") :=
  ⟨(extract_validation_errors 1 1).1 exMask11 (PyValue.str "x") (by intro n; simp),
   (extract_validation_errors 1 1).2.1 exMask11 (-1) (by decide),
   (extract_validation_errors 1 1).2.2 3 exMask11⟩

/-- Counterexample to Claim C8 as stated: a falsy non-text path (the
integer `0`) triggers the empty-paths value error, not the promised
type error, because the truthiness check runs before the `isinstance`
check. -/
theorem read_type_error_counterexample :
    read_image_and_mask_py read0 (PyValue.int 0) (PyValue.str "a") =
      .error (.valueError "Image and mask paths cannot be empty.") ∧
    PyErr.valueError "Image and mask paths cannot be empty." ≠
      PyErr.typeError "Image and mask paths must be strings." :=
  ⟨rfl, by decide⟩

/-- Claim C8 (second part amended to truthy non-text paths): empty
string paths raise the exact empty-paths value error; truthy non-text
paths raise the exact strings type error; nonempty string paths in
different directories raise the exact same-directory value error — and
each conclusion holds for every reading oracle, so the error is raised
before any file is read. -/
theorem read_validation_errors {r c : Nat} :
    (∀ (read : String → List (Mask r c)) (mp : PyValue r c),
      read_image_and_mask_py read (PyValue.str "") mp =
        .error (.valueError "Image and mask paths cannot be empty.")) ∧
    (∀ (read : String → List (Mask r c)) (s1 : String), s1 ≠ "" →
      read_image_and_mask_py read (PyValue.str s1) (PyValue.str "") =
        .error (.valueError "Image and mask paths cannot be empty.")) ∧
    (∀ (read : String → List (Mask r c)) (ip mp : PyValue r c),
      pyTruthyE ip = .ok true → pyTruthyE mp = .ok true →
      ((∀ s, ip ≠ PyValue.str s) ∨ (∀ s, mp ≠ PyValue.str s)) →
      read_image_and_mask_py read ip mp =
        .error (.typeError "Image and mask paths must be strings.")) ∧
    (∀ (read : String → List (Mask r c)) (s1 s2 : String), s1 ≠ "" → s2 ≠ "" →
      dirname s1 ≠ dirname s2 →
      read_image_and_mask_py read (PyValue.str s1) (PyValue.str s2) =
        .error (.valueError "Image and mask must be in the same directory.")) := by
  refine ⟨?_, ?_, ?_, ?_⟩
  · intro read mp
    simp [read_image_and_mask_py, pyTruthyE]
  · intro read s1 h1
    simp [read_image_and_mask_py, pyTruthyE, h1]
  · intro read ip mp h1 h2 hnot
    rcases ip with n | q | s | a | _ <;> rcases mp with n2 | q2 | s2 | a2 | _ <;>
      first
        | (simp only [read_image_and_mask_py, h1, h2, Bool.not_true, Bool.false_eq_true,
            if_false]; done)
        | (exfalso
           rcases hnot with h | h
           · exact absurd rfl (h _)
           · exact absurd rfl (h _))
  · intro read s1 s2 h1 h2 h3
    simp [read_image_and_mask_py, pyTruthyE, h1, h2, h3]

theorem read_validation_errors_witness :
    read_image_and_mask_py read0 (PyValue.str "") (PyValue.str "b") =
      .error (.valueError "Image and mask paths cannot be empty.") ∧
    read_image_and_mask_py read0 (PyValue.str "a") (PyValue.str "") =
      .error (.valueError "Image and mask paths cannot be empty.") ∧
    read_image_and_mask_py read0 (PyValue.str "a") (PyValue.int 5) =
      .error (.typeError "Image and mask paths must be strings.") ∧
    read_image_and_mask_py read0 (PyValue.str "d/a") (PyValue.str "e/b") =
      .error (.valueError "Image and mask must be in the same directory.") :=
  ⟨(@read_validation_errors 1 1).1 read0 (PyValue.str "b"),
   (@read_validation_errors 1 1).2.1 read0 "a" (by decide),
   (@read_validation_errors 1 1).2.2.1 read0 (PyValue.str "a") (PyValue.int 5)
     rfl rfl (Or.inr (by intro s; simp)),
   (@read_validation_errors 1 1).2.2.2 read0 "d/a" "e/b"
     (by decide) (by decide) (by decide)⟩

end RadiomicSpec
